import Mathlib

set_option maxHeartbeats 1000000

/-!
Shallow embedding of the pulse-sequence Bloch simulation dispatcher of
virtual-scanner (src/server/simulation/bloch/blochsim_pulseq.py).

Times, amplitudes and signal samples are modelled with exact rationals.
The isochromat (SpinGroup, defined in spingroup_ps.py, which is not part
of the sources here) is kept abstract: the dispatcher is polymorphic over
a record of the four operations the spec ascribes to it.
-/

/-- Gyromagnetic ratio over two pi in Hz per Tesla, GAMMA_BAR = 42.58e6 in the source. -/
def GAMMA_BAR : ℚ := 42580000

/-- Complex signal sample, modelled exactly as a pair of rationals (re, im). -/
structure Cplx where
  re : ℚ
  im : ℚ
deriving DecidableEq

/-- Complex addition, used when summing per-location signals elementwise. -/
def cadd (a b : Cplx) : Cplx := ⟨a.re + b.re, a.im + b.im⟩

/-- Division of a complex sample by a rational scalar, as in b1 = rf.signal / GAMMA_BAR. -/
def cdivQ (a : Cplx) (q : ℚ) : Cplx := ⟨a.re / q, a.im / q⟩

/-- Three-component vector of rationals: per-axis gradient values or areas. -/
abbrev Vec3 := ℚ × ℚ × ℚ

/-- Scalar multiplication on Vec3, as in grad[:, v] * dt_adc. -/
def smul3 (c : ℚ) (v : Vec3) : Vec3 := (c * v.1, c * v.2.1, c * v.2.2)

/-- Trapezoid gradient sub-event: rise, flat and fall times, plateau amplitude,
and the stored analytic area used by combine_gradient_areas. -/
structure Trap where
  rise_time : ℚ
  flat_time : ℚ
  fall_time : ℚ
  amplitude : ℚ
  area : ℚ
deriving DecidableEq

/-- Arbitrary-waveform gradient sub-event: explicit sample times and amplitudes. -/
structure Arb where
  t : List ℚ
  waveform : List ℚ
deriving DecidableEq

/-- Gradient sub-event: g.type is either trap or an arbitrary waveform. -/
inductive Grad where
  | trap : Trap → Grad
  | arb : Arb → Grad
deriving DecidableEq

/-- RF sub-event: complex B1 waveform samples and their time points (rf.t flattened). -/
structure Rf where
  signal : List Cplx
  t : List ℚ
deriving DecidableEq

/-- ADC sub-event: dwell time, declared sample count, start delay. -/
structure Adc where
  dwell : ℚ
  num_samples : ℕ
  delay : ℚ
deriving DecidableEq

/-- One pulseq block.  Each optional field mirrors one entry of the block event row:
a field is some exactly when the corresponding event id in the row is nonzero. -/
structure Block where
  delay : Option ℚ
  rf : Option Rf
  gx : Option Grad
  gy : Option Grad
  gz : Option Grad
  adc : Option Adc
deriving DecidableEq

/-- A pulseq sequence: blocks listed in ascending key order, plus the two system rasters. -/
structure Sequence where
  blocks : List Block
  grad_raster_time : ℚ
  rf_raster_time : ℚ

/-- The np.arange(start, stop, step) grid for a positive step:
start + i * step for i below the ceiling of (stop - start) / step. -/
def np_arange (start stop step : ℚ) : List ℚ :=
  (List.range (Int.toNat ⌈(stop - start) / step⌉)).map (fun (i : ℕ) => start + (i : ℚ) * step)

/-- The np.interp(x, xp, fp) piecewise-linear interpolant for increasing xp:
clamped to fp.head below the grid and to fp.getLast above it. -/
def np_interp (x : ℚ) : List ℚ → List ℚ → ℚ
  | [], _ => 0
  | [_], [] => 0
  | [_], f0 :: _ => f0
  | x0 :: x1 :: xs, f0 :: f1 :: fs =>
    if x ≤ x0 then f0
    else if x ≤ x1 then f0 + (f1 - f0) * (x - x0) / (x1 - x0)
    else np_interp x (x1 :: xs) (f1 :: fs)
  | _ :: _ :: _, _ => 0

/-- The np.trapz(y, x) trapezoidal-rule integral. -/
def np_trapz (y x : List ℚ) : ℚ :=
  match y, x with
  | y0 :: y1 :: ys, x0 :: x1 :: xs => (x1 - x0) * (y0 + y1) / 2 + np_trapz (y1 :: ys) (x1 :: xs)
  | _, _ => 0

/-- Interpolation control points of one gradient axis, exactly as built in
combine_gradients: a trapezoid yields the four control points (0, rise, rise+flat,
rise+flat+fall) with amplitudes (0, a, a, 0) where a = amplitude / GAMMA_BAR; an
arbitrary waveform yields its own samples divided by GAMMA_BAR. -/
def grad_ctrl (g : Grad) : List ℚ × List ℚ :=
  match g with
  | .trap g => ([0, g.rise_time, g.rise_time + g.flat_time,
                 g.rise_time + g.flat_time + g.fall_time],
                [0, g.amplitude / GAMMA_BAR, g.amplitude / GAMMA_BAR, 0])
  | .arb g => (g.t, g.waveform.map (fun w => w / GAMMA_BAR))

/-- One reconstructed gradient row: interpolate the axis at the timing points,
or all zeros when the axis is absent from the block. -/
def interp_axis (og : Option Grad) (timing : List ℚ) : List ℚ :=
  match og with
  | some g => timing.map (fun x => np_interp x (grad_ctrl g).1 (grad_ctrl g).2)
  | none => timing.map (fun _ => 0)

/-- Reconstructed 3 x N gradient array, one row per axis. -/
structure G3 where
  x : List ℚ
  y : List ℚ
  z : List ℚ
deriving DecidableEq

/-- Column v of the reconstructed 3 x N gradient array for an in-range index
v < N; the spec-side state definitions below use it only at indices the sampling
loop actually visits. -/
def gradCol (g : G3) (v : ℕ) : Vec3 := (g.x.getD v 0, g.y.getD v 0, g.z.getD v 0)

/-- Column access grad[:, v] as the program performs it: none models the
IndexError numpy raises when the column index is out of range for the 3 x N
array (N being the common row length, that of the x row). -/
def gradCol? (g : G3) (v : ℕ) : Option Vec3 :=
  if v < g.x.length then some (gradCol g v) else none

/-- All three reconstructed rows of a block at the given timing points. -/
def interp_block (blk : Block) (timing : List ℚ) : G3 :=
  ⟨interp_axis blk.gx timing, interp_axis blk.gy timing, interp_axis blk.gz timing⟩

/-- The gradient sub-events present in a block, in axis order gx, gy, gz. -/
def block_grads (blk : Block) : List Grad :=
  [blk.gx, blk.gy, blk.gz].filterMap id

/-- Intrinsic duration of one gradient axis as computed in find_precessing_time:
rise + flat + fall for a trapezoid, sample count times the raster step otherwise. -/
def grad_duration (g : Grad) (dt : ℚ) : ℚ :=
  match g with
  | .trap g => g.rise_time + g.flat_time + g.fall_time
  | .arb g => (g.t.length : ℚ) * dt

/-- Python max over a list, defined only on nonempty input. -/
def list_max : List ℚ → Option ℚ
  | [] => none
  | a :: l => some (l.foldl max a)

/-- find_precessing_time: the longest intrinsic duration among the gradient axes
present in the block.  none models the ValueError that max([]) raises when the
block carries no gradient sub-event. -/
def find_precessing_time (blk : Block) (dt : ℚ) : Option ℚ :=
  list_max ((block_grads blk).map (fun g => grad_duration g dt))

/-- Per-axis time-integrated gradient area as in combine_gradient_areas:
stored analytic area for a trapezoid, np.trapz over the waveform otherwise. -/
def grad_area (g : Grad) : ℚ :=
  match g with
  | .trap g => g.area
  | .arb g => np_trapz g.waveform g.t

/-- combine_gradient_areas: the three per-axis areas (0 for an absent axis),
divided by GAMMA_BAR. -/
def combine_gradient_areas (blk : Block) : Vec3 :=
  ((blk.gx.elim 0 grad_area) / GAMMA_BAR,
   (blk.gy.elim 0 grad_area) / GAMMA_BAR,
   (blk.gz.elim 0 grad_area) / GAMMA_BAR)

/-- combine_gradients: reconstruct the three gradient rows.  When dt is nonzero the
timing grid is np.arange(0, duration, dt), with a leading 0 and a grid starting at
the delay when the delay is nonzero, where duration comes from find_precessing_time
(none models the error raised there on a gradient-free block).  When dt is zero the
rows are interpolated at the supplied timing points and the duration is the span of
that grid. -/
def combine_gradients (blk : Block) (dt : ℚ) (timing : List ℚ) (delay : ℚ) :
    Option (G3 × List ℚ × ℚ) :=
  if dt ≠ 0 then
    (find_precessing_time blk dt).map (fun duration =>
      let grad_timing := if delay = 0 then np_arange 0 duration dt
                         else 0 :: np_arange delay duration dt
      (interp_block blk grad_timing, grad_timing, duration))
  else
    some (interp_block blk timing, timing, timing.getLastD 0 - timing.headD 0)

/-- Modelled from the spec: spingroup_ps.py (the SpinGroup class) is not among the
sources, so the isochromat is abstracted to the operations the spec ascribes to it:
construction from location, (PD, T1, T2) and off-resonance; free precession for a
delay; stepwise RF excitation with a concurrent gradient at the RF raster; free
precession with a net gradient area over a duration; and a pure signal read. -/
structure SpinGroupOps (S : Type) where
  newSpinGroup : Vec3 → Vec3 → ℚ → S
  delay : S → ℚ → S
  apply_rf : S → List Cplx → G3 → ℚ → S
  fpwg : S → Vec3 → ℚ → S
  get_m_signal : S → Cplx

/-- The ADC sampling loop of apply_pulseq: with k raster steps left and current
index v, record one signal sample while v has not passed the declared sample
count, then advance the isochromat through one dwell time under gradient column v
(none models an IndexError on an out-of-range column). -/
def adc_loop {S : Type} (ops : SpinGroupOps S) (grad : G3) (dt_adc : ℚ) (nsamp : ℕ) :
    ℕ → ℕ → S → Option (S × List Cplx)
  | 0, _, isc => some (isc, [])
  | k + 1, v, isc =>
    let sampled := if v ≤ nsamp then [ops.get_m_signal isc] else []
    match gradCol? grad v with
    | none => none
    | some col =>
      match adc_loop ops grad dt_adc nsamp k (v + 1)
          (ops.fpwg isc (smul3 dt_adc col) dt_adc) with
      | none => none
      | some r => some (r.1, sampled ++ r.2)

/-- The ADC dispatch case: reconstruct the gradient at the dwell raster with the
ADC start delay as leading offset, advance through the delay under gradient column
0 scaled by the delay (an IndexError, modelled by none, when the reconstructed
timing grid is empty and the array has no column 0), then run the sampling loop
over the remaining raster steps. -/
def adc_branch {S : Type} (ops : SpinGroupOps S) (isc : S) (blk : Block) (adc : Adc) :
    Option (S × Option (List Cplx)) :=
  match combine_gradients blk adc.dwell [] adc.delay with
  | none => none
  | some (grad, timing, _) =>
    match gradCol? grad 0 with
    | none => none
    | some col0 =>
      match adc_loop ops grad adc.dwell adc.num_samples (timing.length - 1) 1
          (ops.fpwg isc (smul3 adc.delay col0) adc.delay) with
      | none => none
      | some r => some (r.1, some r.2)

/-- The RF dispatch case: b1 = rf.signal / GAMMA_BAR, the concurrent gradient is
reconstructed at the RF sample times each shifted back by one RF raster step, and
both are applied to the isochromat at the RF raster step. -/
def rf_branch {S : Type} (ops : SpinGroupOps S) (dt_rf : ℚ) (isc : S) (blk : Block)
    (rf : Rf) : Option (S × Option (List Cplx)) :=
  match combine_gradients blk 0 (rf.t.map (fun t => t - dt_rf)) 0 with
  | none => none
  | some (rf_grad, _, _) =>
    some (ops.apply_rf isc (rf.signal.map (fun c => cdivQ c GAMMA_BAR)) rf_grad dt_rf, none)

/-- The gradient-only dispatch case: advance through the longest-axis duration
with the combined per-axis areas. -/
def grad_branch {S : Type} (ops : SpinGroupOps S) (dt_grad : ℚ) (isc : S) (blk : Block) :
    Option (S × Option (List Cplx)) :=
  match find_precessing_time blk dt_grad with
  | none => none
  | some dur => some (ops.fpwg isc (combine_gradient_areas blk) dur, none)

/-- One step of the event dispatcher of apply_pulseq: the if and elif chain over
the block event row, in source order delay, rf, adc, gradients, with no action
when no sub-event is populated. -/
def apply_block {S : Type} (ops : SpinGroupOps S) (dt_grad dt_rf : ℚ) (isc : S)
    (blk : Block) : Option (S × Option (List Cplx)) :=
  match blk.delay with
  | some d => some (ops.delay isc d, none)
  | none =>
    match blk.rf with
    | some rf => rf_branch ops dt_rf isc blk rf
    | none =>
      match blk.adc with
      | some adc => adc_branch ops isc blk adc
      | none =>
        if blk.gx.isSome || blk.gy.isSome || blk.gz.isSome then
          grad_branch ops dt_grad isc blk
        else
          some (isc, none)

/-- Sequential dispatch over a list of blocks, threading the isochromat state and
appending each ADC block's sample list to the collected signal. -/
def apply_blocks {S : Type} (ops : SpinGroupOps S) (dt_grad dt_rf : ℚ) :
    S → List Block → Option (S × List (List Cplx))
  | isc, [] => some (isc, [])
  | isc, blk :: rest =>
    match apply_block ops dt_grad dt_rf isc blk with
    | none => none
    | some (isc2, osig) =>
      match apply_blocks ops dt_grad dt_rf isc2 rest with
      | none => none
      | some (isc3, sigs) => some (isc3, osig.toList ++ sigs)

/-- apply_pulseq: process the blocks in ascending key order and return the list of
per-ADC-block sample lists (none models an uncaught exception). -/
def apply_pulseq {S : Type} (ops : SpinGroupOps S) (isc : S) (seq : Sequence) :
    Option (List (List Cplx)) :=
  (apply_blocks ops seq.grad_raster_time seq.rf_raster_time isc seq.blocks).map
    (fun r => r.2)

/-- Modelled from the spec: phantom.py is not among the sources; the spec describes
the phantom as a read-only queryable object giving, per location index, a position
and a (PD, T1, T2) parameter tuple. -/
structure Phantom where
  inds : List ℕ
  location : ℕ → Vec3
  pdt1t2 : ℕ → Vec3

/-- sim_single_spingroup: build a fresh isochromat for one location and run the
full sequence on it. -/
def sim_single_spingroup {S : Type} (ops : SpinGroupOps S) (loc_ind : ℕ)
    (freq_offset : ℚ) (phantom : Phantom) (seq : Sequence) : Option (List (List Cplx)) :=
  apply_pulseq ops (ops.newSpinGroup (phantom.location loc_ind)
    (phantom.pdt1t2 loc_ind) freq_offset) seq

/-- Elementwise sum of two sample lists. -/
def add2 (a b : List Cplx) : List Cplx := List.zipWith cadd a b

/-- Elementwise sum of two per-location signals (lists of sample lists). -/
def add22 (a b : List (List Cplx)) : List (List Cplx) := List.zipWith add2 a b

/-- np.sum(results, axis=0): elementwise sum of the per-location signals. -/
def sum_signals : List (List (List Cplx)) → List (List Cplx)
  | [] => []
  | s :: rest => rest.foldl add22 s

/-- Collect the per-location signals of the listed locations in order; none as a
whole when any location's run raises. -/
def collect_signals {S : Type} (ops : SpinGroupOps S) (df : ℚ) (phantom : Phantom)
    (seq : Sequence) : List ℕ → Option (List (List (List Cplx)))
  | [] => some []
  | i :: rest =>
    match sim_single_spingroup ops i df phantom seq with
    | none => none
    | some s =>
      match collect_signals ops df phantom seq rest with
      | none => none
      | some ss => some (s :: ss)

/-- The ensemble reduction of the main driver: run every location independently
and sum the per-location signals elementwise. -/
def ensemble_signal {S : Type} (ops : SpinGroupOps S) (df : ℚ) (phantom : Phantom)
    (seq : Sequence) : Option (List (List Cplx)) :=
  (collect_signals ops df phantom seq phantom.inds).map sum_signals

/-! Spec-side characterisations used to state the claims. -/

/-- Linear interpolation against the four trapezoid control points
written out as the closed piecewise formula: 0 before the ramp, a linear rise to
the plateau amplitude over the rise time, the plateau over the flat time, a linear
fall back to 0 over the fall time, and 0 afterwards. -/
def trap_lin_interp (g : Trap) (t : ℚ) : ℚ :=
  if t ≤ 0 then 0
  else if t ≤ g.rise_time then (g.amplitude / GAMMA_BAR) * t / g.rise_time
  else if t ≤ g.rise_time + g.flat_time then g.amplitude / GAMMA_BAR
  else if t ≤ g.rise_time + g.flat_time + g.fall_time then
    (g.amplitude / GAMMA_BAR) * (g.rise_time + g.flat_time + g.fall_time - t) / g.fall_time
  else 0

/-- Exact antiderivative of trap_lin_interp, used to evaluate the trapezoidal rule. -/
def trapF (g : Trap) (t : ℚ) : ℚ :=
  if t ≤ g.rise_time then (g.amplitude / GAMMA_BAR) * t ^ 2 / (2 * g.rise_time)
  else if t ≤ g.rise_time + g.flat_time then
    (g.amplitude / GAMMA_BAR) * g.rise_time / 2 + (g.amplitude / GAMMA_BAR) * (t - g.rise_time)
  else
    (g.amplitude / GAMMA_BAR) * g.rise_time / 2 + (g.amplitude / GAMMA_BAR) * g.flat_time
      + ((g.amplitude / GAMMA_BAR) * (t - g.rise_time - g.flat_time)
         - (g.amplitude / GAMMA_BAR) * (t - g.rise_time - g.flat_time) ^ 2 / (2 * g.fall_time))

/-- Isochromat states reached inside one ADC block, as the spec describes them:
state 0 is the state after the advance through the ADC start delay under gradient
column 0 scaled by the delay, and state k+1 follows state k by one advance through
the dwell time under gradient column k+1. -/
def adc_state {S : Type} (ops : SpinGroupOps S) (isc : S) (grad : G3)
    (delay dt : ℚ) : ℕ → S
  | 0 => ops.fpwg isc (smul3 delay (gradCol grad 0)) delay
  | k + 1 => ops.fpwg (adc_state ops isc grad delay dt k) (smul3 dt (gradCol grad (k + 1))) dt

/-- Advancing an isochromat through j dwell steps under gradient columns
v, v+1, ..., v+j-1, the generic form used to reason about the ADC loop. -/
def adc_state_from {S : Type} (ops : SpinGroupOps S) (grad : G3) (dt : ℚ) (s : S)
    (v : ℕ) : ℕ → S
  | 0 => s
  | j + 1 => ops.fpwg (adc_state_from ops grad dt s v j) (smul3 dt (gradCol grad (v + j))) dt

/-- The per-block signal shape (none for a failing dispatch, some none for a block
with no ADC, some (some n) for an ADC block yielding n samples), computed from the
block alone with no reference to any isochromat. -/
def block_shape (dt_grad : ℚ) (blk : Block) : Option (Option ℕ) :=
  match blk.delay with
  | some _ => some none
  | none =>
    match blk.rf with
    | some _ => some none
    | none =>
      match blk.adc with
      | some adc =>
        match combine_gradients blk adc.dwell [] adc.delay with
        | none => none
        | some (_, timing, _) =>
          if timing.length = 0 then none
          else some (some (min (timing.length - 1) adc.num_samples))
      | none =>
        if blk.gx.isSome || blk.gy.isSome || blk.gz.isSome then
          match find_precessing_time blk dt_grad with
          | none => none
          | some _ => some none
        else some none

/-- The whole-sequence signal shape: the list of per-ADC-block sample counts,
computed from the blocks alone. -/
def blocks_shape (dt_grad : ℚ) : List Block → Option (List ℕ)
  | [] => some []
  | blk :: rest =>
    match block_shape dt_grad blk with
    | none => none
    | some os =>
      match blocks_shape dt_grad rest with
      | none => none
      | some ns => some (os.toList ++ ns)

/-! A concrete isochromat instance recording the operation trace, used to
evaluate the dispatcher on explicit inputs. -/

/-- One recorded isochromat operation. -/
inductive TraceStep where
  | delayed : ℚ → TraceStep
  | rfPulse : List Cplx → G3 → ℚ → TraceStep
  | precessed : Vec3 → ℚ → TraceStep
deriving DecidableEq

/-- Isochromat state as the list of operations applied so far. -/
abbrev Trace := List TraceStep

/-- Trace instance of the abstract isochromat operations: each operation appends
its record; the signal read returns the number of operations applied so far. -/
def traceOps : SpinGroupOps Trace where
  newSpinGroup _ _ _ := []
  delay s d := s ++ [TraceStep.delayed d]
  apply_rf s b1 g dt := s ++ [TraceStep.rfPulse b1 g dt]
  fpwg s a t := s ++ [TraceStep.precessed a t]
  get_m_signal s := ⟨(s.length : ℚ), 0⟩

/-! Concrete inputs used as counterexamples and witnesses. -/

/-- A unit trapezoid: rise 1, flat 1, fall 1, plateau amplitude GAMMA_BAR
(so the reconstructed plateau value is 1), stored area 2 * GAMMA_BAR. -/
def trapU : Trap := ⟨1, 1, 1, GAMMA_BAR, 2 * GAMMA_BAR⟩

/-- An RF block whose pulse has two samples at times 1 and 2, with a concurrent
unit trapezoid on the x axis. -/
def blkRfG : Block :=
  ⟨none, some ⟨[⟨GAMMA_BAR, 0⟩, ⟨GAMMA_BAR, 0⟩], [1, 2]⟩,
   some (Grad.trap trapU), none, none, none⟩

/-- A block carrying both a delay of 5 and a unit trapezoid of total duration 3. -/
def blkDelayG : Block := ⟨some 5, none, some (Grad.trap trapU), none, none, none⟩

/-- An ADC block with dwell 1, two declared samples and no start delay, over a
unit trapezoid on the x axis. -/
def blkAdcG : Block := ⟨none, none, some (Grad.trap trapU), none, none, some ⟨1, 2, 0⟩⟩

/-- An ADC block with a start delay of 1. -/
def blkAdcD : Block :=
  ⟨none, none, some (Grad.trap trapU), none, none, some ⟨1, 2, 1⟩⟩

/-- An ADC block that carries no gradient sub-event on any axis. -/
def blkAdcNoG : Block := ⟨none, none, none, none, none, some ⟨1, 5, 0⟩⟩

/-- An ADC block declaring more samples (5) than its gradient timing grid can
supply (the grid has 3 points, so only 2 samples are recorded). -/
def blkAdcT : Block := ⟨none, none, some (Grad.trap trapU), none, none, some ⟨1, 5, 0⟩⟩

/-- An ADC block over a zero-duration trapezoid: the reconstructed timing grid is
empty, so the program fails at the column-0 access of the 3 x 0 gradient array. -/
def blkAdcZ : Block :=
  ⟨none, none, some (Grad.trap ⟨0, 0, 0, 0, 0⟩), none, none, some ⟨1, 5, 0⟩⟩

/-- A gradient-only block with the unit trapezoid on the z axis. -/
def blkGradOnly : Block := ⟨none, none, none, none, some (Grad.trap trapU), none⟩

/-- A one-ADC-block sequence over the unit trapezoid, with both rasters 1. -/
def seqAdc : Sequence := ⟨[blkAdcG], 1, 1⟩

/-- A two-location phantom over seqAdc. -/
def phantom2 : Phantom := ⟨[0, 1], fun _ => (0, 0, 0), fun _ => (1, 1, 1)⟩

/-! Evaluation lemmas for the concrete inputs. -/

lemma np_arange_eval (start step stop : ℚ) (n : ℕ)
    (h : ⌈(stop - start) / step⌉ = (n : ℤ)) :
    np_arange start stop step =
      (List.range n).map (fun (i : ℕ) => start + (i : ℚ) * step) := by
  rw [np_arange, h, Int.toNat_natCast]

lemma range_three : List.range 3 = [0, 1, 2] := by decide

lemma range_two : List.range 2 = [0, 1] := by decide

lemma fpt_trapU (blk : Block) (dt : ℚ) (h : block_grads blk = [Grad.trap trapU]) :
    find_precessing_time blk dt = some 3 := by
  rw [find_precessing_time, h]
  norm_num [grad_duration, list_max, trapU]

lemma interp_trapU_vals :
    np_interp 0 (grad_ctrl (Grad.trap trapU)).1 (grad_ctrl (Grad.trap trapU)).2 = 0 ∧
    np_interp 1 (grad_ctrl (Grad.trap trapU)).1 (grad_ctrl (Grad.trap trapU)).2 = 1 ∧
    np_interp 2 (grad_ctrl (Grad.trap trapU)).1 (grad_ctrl (Grad.trap trapU)).2 = 1 := by
  norm_num [grad_ctrl, np_interp, trapU, GAMMA_BAR]

lemma combine_blkAdcG :
    combine_gradients blkAdcG 1 [] 0 =
      some (⟨[0, 1, 1], [0, 0, 0], [0, 0, 0]⟩, [0, 1, 2], 3) := by
  rw [combine_gradients, if_pos (by norm_num), fpt_trapU blkAdcG 1 rfl]
  simp only [Option.map_some', if_true]
  rw [np_arange_eval 0 1 3 3 (by norm_num), range_three]
  norm_num [interp_block, interp_axis, grad_ctrl, np_interp, trapU, GAMMA_BAR, blkAdcG]

lemma combine_blkAdcT :
    combine_gradients blkAdcT 1 [] 0 =
      some (⟨[0, 1, 1], [0, 0, 0], [0, 0, 0]⟩, [0, 1, 2], 3) := by
  rw [combine_gradients, if_pos (by norm_num), fpt_trapU blkAdcT 1 rfl]
  simp only [Option.map_some', if_true]
  rw [np_arange_eval 0 1 3 3 (by norm_num), range_three]
  norm_num [interp_block, interp_axis, grad_ctrl, np_interp, trapU, GAMMA_BAR, blkAdcT]

lemma combine_blkAdcZ :
    combine_gradients blkAdcZ 1 [] 0 = some (⟨[], [], []⟩, [], 0) := by
  rw [combine_gradients, if_pos (by norm_num)]
  have hfpt : find_precessing_time blkAdcZ 1 = some 0 := by
    rw [find_precessing_time,
      show block_grads blkAdcZ = [Grad.trap ⟨0, 0, 0, 0, 0⟩] from rfl]
    norm_num [grad_duration, list_max]
  rw [hfpt]
  simp only [Option.map_some', if_true]
  rw [np_arange_eval 0 1 0 0 (by norm_num)]
  simp [interp_block, interp_axis, blkAdcZ]

lemma combine_blkAdcD :
    combine_gradients blkAdcD 1 [] 1 =
      some (⟨[0, 1, 1], [0, 0, 0], [0, 0, 0]⟩, [0, 1, 2], 3) := by
  rw [combine_gradients, if_pos (by norm_num), fpt_trapU blkAdcD 1 rfl]
  simp only [Option.map_some']
  rw [if_neg (by norm_num : ¬ ((1 : ℚ) = 0)), np_arange_eval 1 1 3 2 (by norm_num), range_two]
  norm_num [interp_block, interp_axis, grad_ctrl, np_interp, trapU, GAMMA_BAR, blkAdcD]

/-! Dispatch lemmas. -/

lemma apply_block_delay {S : Type} (ops : SpinGroupOps S) (dtg dtr : ℚ) (isc : S)
    (blk : Block) (d : ℚ) (h : blk.delay = some d) :
    apply_block ops dtg dtr isc blk = some (ops.delay isc d, none) := by
  simp [apply_block, h]

lemma apply_block_rf {S : Type} (ops : SpinGroupOps S) (dtg dtr : ℚ) (isc : S)
    (blk : Block) (rf : Rf) (h0 : blk.delay = none) (h1 : blk.rf = some rf) :
    apply_block ops dtg dtr isc blk = rf_branch ops dtr isc blk rf := by
  simp [apply_block, h0, h1]

lemma apply_block_adc {S : Type} (ops : SpinGroupOps S) (dtg dtr : ℚ) (isc : S)
    (blk : Block) (adc : Adc) (h0 : blk.delay = none) (h1 : blk.rf = none)
    (h2 : blk.adc = some adc) :
    apply_block ops dtg dtr isc blk = adc_branch ops isc blk adc := by
  simp [apply_block, h0, h1, h2]

lemma apply_block_grad {S : Type} (ops : SpinGroupOps S) (dtg dtr : ℚ) (isc : S)
    (blk : Block) (h0 : blk.delay = none) (h1 : blk.rf = none) (h2 : blk.adc = none)
    (h3 : (blk.gx.isSome || blk.gy.isSome || blk.gz.isSome) = true) :
    apply_block ops dtg dtr isc blk = grad_branch ops dtg isc blk := by
  simp [apply_block, h0, h1, h2, h3]

lemma apply_blocks_append {S : Type} (ops : SpinGroupOps S) (dtg dtr : ℚ) :
    ∀ (bs1 bs2 : List Block) (isc : S),
    apply_blocks ops dtg dtr isc (bs1 ++ bs2) =
      (apply_blocks ops dtg dtr isc bs1).bind (fun r =>
        (apply_blocks ops dtg dtr r.1 bs2).map (fun r2 => (r2.1, r.2 ++ r2.2))) := by
  intro bs1
  induction bs1 with
  | nil =>
    intro bs2 isc
    simp only [List.nil_append, apply_blocks]
    cases h : apply_blocks ops dtg dtr isc bs2 with
    | none => simp [h]
    | some r => simp [h]
  | cons b bs ih =>
    intro bs2 isc
    simp only [List.cons_append, apply_blocks]
    cases hb : apply_block ops dtg dtr isc b with
    | none => simp
    | some r =>
      obtain ⟨isc2, osig⟩ := r
      simp only [List.append_eq]
      rw [ih bs2 isc2]
      cases h1 : apply_blocks ops dtg dtr isc2 bs with
      | none => simp
      | some r1 =>
        obtain ⟨isc3, sigs⟩ := r1
        cases h2 : apply_blocks ops dtg dtr isc3 bs2 with
        | none => simp [h2]
        | some r2 => simp [h2, List.append_assoc]

/-- C2: exactly one of the four event kinds is dispatched per block, chosen by the
priority order delay, rf, adc, gradient-only over the populated sub-events (a block
carrying both a delay and another sub-event is handled as a delay only), and blocks
are processed sequentially in order with no reordering or lookahead: dispatching a
concatenation runs the first segment to completion and then the second from the
reached state, appending the recorded signals. -/
theorem C2_dispatch_priority_sequential :
    (∀ (S : Type) (ops : SpinGroupOps S) (dtg dtr : ℚ) (isc : S) (blk : Block) (d : ℚ),
      blk.delay = some d →
      apply_block ops dtg dtr isc blk = some (ops.delay isc d, none)) ∧
    (∀ (S : Type) (ops : SpinGroupOps S) (dtg dtr : ℚ) (isc : S) (blk : Block) (rf : Rf),
      blk.delay = none → blk.rf = some rf →
      apply_block ops dtg dtr isc blk = rf_branch ops dtr isc blk rf) ∧
    (∀ (S : Type) (ops : SpinGroupOps S) (dtg dtr : ℚ) (isc : S) (blk : Block) (adc : Adc),
      blk.delay = none → blk.rf = none → blk.adc = some adc →
      apply_block ops dtg dtr isc blk = adc_branch ops isc blk adc) ∧
    (∀ (S : Type) (ops : SpinGroupOps S) (dtg dtr : ℚ) (isc : S) (blk : Block),
      blk.delay = none → blk.rf = none → blk.adc = none →
      (blk.gx.isSome || blk.gy.isSome || blk.gz.isSome) = true →
      apply_block ops dtg dtr isc blk = grad_branch ops dtg isc blk) ∧
    (∀ (S : Type) (ops : SpinGroupOps S) (dtg dtr : ℚ) (isc : S) (bs1 bs2 : List Block),
      apply_blocks ops dtg dtr isc (bs1 ++ bs2) =
        (apply_blocks ops dtg dtr isc bs1).bind (fun r =>
          (apply_blocks ops dtg dtr r.1 bs2).map (fun r2 => (r2.1, r.2 ++ r2.2)))) := by
  refine ⟨?_, ?_, ?_, ?_, ?_⟩
  · intro S ops dtg dtr isc blk d h
    exact apply_block_delay ops dtg dtr isc blk d h
  · intro S ops dtg dtr isc blk rf h0 h1
    exact apply_block_rf ops dtg dtr isc blk rf h0 h1
  · intro S ops dtg dtr isc blk adc h0 h1 h2
    exact apply_block_adc ops dtg dtr isc blk adc h0 h1 h2
  · intro S ops dtg dtr isc blk h0 h1 h2 h3
    exact apply_block_grad ops dtg dtr isc blk h0 h1 h2 h3
  · intro S ops dtg dtr isc bs1 bs2
    exact apply_blocks_append ops dtg dtr bs1 bs2 isc

/-- Witness for C2 at concrete blocks: the delay-and-gradient block is handled as a
delay only, the RF, ADC and gradient-only blocks go to their branches, and a
two-block concatenation decomposes sequentially. -/
theorem C2_witness :
    apply_block traceOps 1 1 ([] : Trace) blkDelayG = some ([TraceStep.delayed 5], none) ∧
    apply_block traceOps 1 1 ([] : Trace) blkRfG =
      rf_branch traceOps 1 ([] : Trace) blkRfG ⟨[⟨GAMMA_BAR, 0⟩, ⟨GAMMA_BAR, 0⟩], [1, 2]⟩ ∧
    apply_block traceOps 1 1 ([] : Trace) blkAdcG =
      adc_branch traceOps ([] : Trace) blkAdcG ⟨1, 2, 0⟩ ∧
    apply_block traceOps 1 1 ([] : Trace) blkGradOnly =
      grad_branch traceOps 1 ([] : Trace) blkGradOnly ∧
    apply_blocks traceOps 1 1 ([] : Trace) ([blkDelayG] ++ [blkGradOnly]) =
      (apply_blocks traceOps 1 1 ([] : Trace) [blkDelayG]).bind (fun r =>
        (apply_blocks traceOps 1 1 r.1 [blkGradOnly]).map (fun r2 => (r2.1, r.2 ++ r2.2))) :=
  ⟨C2_dispatch_priority_sequential.1 Trace traceOps 1 1 [] blkDelayG 5 rfl,
   C2_dispatch_priority_sequential.2.1 Trace traceOps 1 1 [] blkRfG _ rfl rfl,
   C2_dispatch_priority_sequential.2.2.1 Trace traceOps 1 1 [] blkAdcG _ rfl rfl rfl,
   C2_dispatch_priority_sequential.2.2.2.1 Trace traceOps 1 1 [] blkGradOnly rfl rfl rfl rfl,
   C2_dispatch_priority_sequential.2.2.2.2 Trace traceOps 1 1 [] [blkDelayG] [blkGradOnly]⟩

/-! Lemmas on list_max and find_precessing_time. -/

lemma list_max_none_iff (l : List ℚ) : list_max l = none ↔ l = [] := by
  cases l <;> simp [list_max]

lemma find_precessing_time_none_iff (blk : Block) (dt : ℚ) :
    find_precessing_time blk dt = none ↔
      blk.gx = none ∧ blk.gy = none ∧ blk.gz = none := by
  cases hx : blk.gx <;> cases hy : blk.gy <;> cases hz : blk.gz <;>
    simp [find_precessing_time, block_grads, list_max, hx, hy, hz]

lemma foldl_max_spec :
    ∀ (l : List ℚ) (a : ℚ), (l.foldl max a = a ∨ l.foldl max a ∈ l) ∧
      a ≤ l.foldl max a ∧ ∀ b ∈ l, b ≤ l.foldl max a := by
  intro l
  induction l with
  | nil => intro a; simp
  | cons c l ih =>
    intro a
    obtain ⟨hmem, hle, hall⟩ := ih (max a c)
    refine ⟨?_, ?_, ?_⟩
    · rcases hmem with h | h
      · rw [List.foldl_cons, h]
        rcases max_choice a c with h2 | h2
        · left; exact h2
        · right; rw [h2]; exact List.mem_cons_self c l
      · right; exact List.mem_cons_of_mem c h
    · exact le_trans (le_max_left a c) hle
    · intro b hb
      rcases List.mem_cons.mp hb with h | h
      · rw [List.foldl_cons, h]; exact le_trans (le_max_right a c) hle
      · exact hall b h

lemma list_max_spec (l : List ℚ) (m : ℚ) (h : list_max l = some m) :
    m ∈ l ∧ ∀ b ∈ l, b ≤ m := by
  cases l with
  | nil => simp [list_max] at h
  | cons a l =>
    simp only [list_max, Option.some.injEq] at h
    obtain ⟨hmem, hle, hall⟩ := foldl_max_spec l a
    subst h
    refine ⟨?_, ?_⟩
    · rcases hmem with h | h
      · rw [h]; exact List.mem_cons_self a l
      · exact List.mem_cons_of_mem a h
    · intro b hb
      rcases List.mem_cons.mp hb with h | h
      · rw [h]; exact hle
      · exact hall b h

lemma combine_gradients_dt_inv (blk : Block) (dt : ℚ) (timing0 : List ℚ) (delay : ℚ)
    (g : G3) (t : List ℚ) (dur : ℚ) (hdt : dt ≠ 0)
    (h : combine_gradients blk dt timing0 delay = some (g, t, dur)) :
    find_precessing_time blk dt = some dur ∧
      t = (if delay = 0 then np_arange 0 dur dt else 0 :: np_arange delay dur dt) ∧
      g = interp_block blk t := by
  rw [combine_gradients, if_pos hdt] at h
  cases hf : find_precessing_time blk dt with
  | none => rw [hf] at h; simp at h
  | some d =>
    rw [hf] at h
    simp only [Option.map_some', Option.some.injEq, Prod.mk.injEq] at h
    obtain ⟨hg, ht, hd⟩ := h
    subst hd
    refine ⟨rfl, ht.symm, ?_⟩
    rw [← hg, ← ht]

lemma combine_gradients_grad_eq (blk : Block) (dt : ℚ) (timing0 : List ℚ) (delay : ℚ)
    (g : G3) (t : List ℚ) (dur : ℚ)
    (h : combine_gradients blk dt timing0 delay = some (g, t, dur)) :
    g = interp_block blk t := by
  by_cases hdt : dt = 0
  · rw [combine_gradients, hdt] at h
    simp only [ne_eq, not_true_eq_false, if_false, Option.some.injEq, Prod.mk.injEq] at h
    rw [← h.1, ← h.2.1]
  · exact (combine_gradients_dt_inv blk dt timing0 delay g t dur hdt h).2.2

/-! C10: partiality of find_precessing_time and the unguarded ADC dispatch. -/

lemma apply_block_adc_nograd {S : Type} (ops : SpinGroupOps S) (dtg dtr : ℚ) (isc : S)
    (blk : Block) (adc : Adc) (h0 : blk.delay = none) (h1 : blk.rf = none)
    (h2 : blk.adc = some adc) (hdwell : adc.dwell ≠ 0)
    (hx : blk.gx = none) (hy : blk.gy = none) (hz : blk.gz = none) :
    apply_block ops dtg dtr isc blk = none := by
  rw [apply_block_adc ops dtg dtr isc blk adc h0 h1 h2]
  rw [adc_branch, combine_gradients, if_pos hdwell,
    (find_precessing_time_none_iff blk adc.dwell).mpr ⟨hx, hy, hz⟩]
  rfl

lemma apply_blocks_bad_block {S : Type} (ops : SpinGroupOps S) (dtg dtr : ℚ) :
    ∀ (bs : List Block) (isc : S),
    (∃ blk ∈ bs, blk.delay = none ∧ blk.rf = none ∧ blk.gx = none ∧ blk.gy = none ∧
      blk.gz = none ∧ ∃ adc, blk.adc = some adc ∧ adc.dwell ≠ 0) →
    apply_blocks ops dtg dtr isc bs = none := by
  intro bs
  induction bs with
  | nil => intro isc h; simp at h
  | cons b bs ih =>
    intro isc h
    obtain ⟨blk, hmem, hbad⟩ := h
    rcases List.mem_cons.mp hmem with h | h
    · obtain ⟨h0, h1, hx, hy, hz, adc, h2, hdwell⟩ := hbad
      subst h
      rw [apply_blocks, apply_block_adc_nograd ops dtg dtr isc blk adc h0 h1 h2 hdwell hx hy hz]
    · rw [apply_blocks]
      cases hb : apply_block ops dtg dtr isc b with
      | none => rfl
      | some r =>
        obtain ⟨isc2, osig⟩ := r
        simp [ih isc2 ⟨blk, h, hbad⟩]

/-- C10: find_precessing_time is undefined (the empty max) exactly when no gradient
sub-event is present on any axis; the gradient-only dispatch guard rules that out,
but the ADC dispatch does not, so a sequence containing an ADC block with a nonzero
dwell and no gradient sub-event fails for every isochromat. -/
theorem C10_find_precessing_time_partiality :
    (∀ (blk : Block) (dt : ℚ),
      find_precessing_time blk dt = none ↔
        blk.gx = none ∧ blk.gy = none ∧ blk.gz = none) ∧
    (∀ (S : Type) (ops : SpinGroupOps S) (dtg dtr : ℚ) (isc : S) (blk : Block),
      blk.delay = none → blk.rf = none → blk.adc = none →
      (blk.gx.isSome || blk.gy.isSome || blk.gz.isSome) = true →
      (find_precessing_time blk dtg).isSome = true ∧
        (apply_block ops dtg dtr isc blk).isSome = true) ∧
    (∀ (S : Type) (ops : SpinGroupOps S) (dtg dtr : ℚ) (isc : S) (blk : Block) (adc : Adc),
      blk.delay = none → blk.rf = none → blk.adc = some adc → adc.dwell ≠ 0 →
      blk.gx = none → blk.gy = none → blk.gz = none →
      apply_block ops dtg dtr isc blk = none) ∧
    (∀ (S : Type) (ops : SpinGroupOps S) (isc : S) (seq : Sequence),
      (∃ blk ∈ seq.blocks, blk.delay = none ∧ blk.rf = none ∧ blk.gx = none ∧
        blk.gy = none ∧ blk.gz = none ∧ ∃ adc, blk.adc = some adc ∧ adc.dwell ≠ 0) →
      apply_pulseq ops isc seq = none) := by
  refine ⟨?_, ?_, ?_, ?_⟩
  · exact find_precessing_time_none_iff
  · intro S ops dtg dtr isc blk h0 h1 h2 h3
    have hne : find_precessing_time blk dtg ≠ none := by
      rw [ne_eq, find_precessing_time_none_iff]
      intro ⟨hx, hy, hz⟩
      rw [hx, hy, hz] at h3
      simp at h3
    cases hf : find_precessing_time blk dtg with
    | none => exact absurd hf hne
    | some d =>
      refine ⟨rfl, ?_⟩
      rw [apply_block_grad ops dtg dtr isc blk h0 h1 h2 h3, grad_branch, hf]
      rfl
  · intro S ops dtg dtr isc blk adc h0 h1 h2 hdwell hx hy hz
    exact apply_block_adc_nograd ops dtg dtr isc blk adc h0 h1 h2 hdwell hx hy hz
  · intro S ops isc seq h
    rw [apply_pulseq, apply_blocks_bad_block ops _ _ seq.blocks isc h]
    rfl

/-- Witness for C10 at the gradient-free ADC block: the whole one-block sequence
fails, while the gradient-only block's dispatch succeeds. -/
theorem C10_witness :
    (find_precessing_time blkAdcNoG 1 = none ↔
      blkAdcNoG.gx = none ∧ blkAdcNoG.gy = none ∧ blkAdcNoG.gz = none) ∧
    ((find_precessing_time blkGradOnly 1).isSome = true ∧
      (apply_block traceOps 1 1 ([] : Trace) blkGradOnly).isSome = true) ∧
    apply_block traceOps 1 1 ([] : Trace) blkAdcNoG = none ∧
    apply_pulseq traceOps ([] : Trace) ⟨[blkAdcNoG], 1, 1⟩ = none :=
  ⟨C10_find_precessing_time_partiality.1 blkAdcNoG 1,
   C10_find_precessing_time_partiality.2.1 Trace traceOps 1 1 [] blkGradOnly rfl rfl rfl rfl,
   C10_find_precessing_time_partiality.2.2.1 Trace traceOps 1 1 [] blkAdcNoG ⟨1, 5, 0⟩
     rfl rfl rfl (by norm_num) rfl rfl rfl,
   C10_find_precessing_time_partiality.2.2.2 Trace traceOps [] ⟨[blkAdcNoG], 1, 1⟩
     ⟨blkAdcNoG, by simp, rfl, rfl, rfl, rfl, rfl, ⟨1, 5, 0⟩, rfl, by norm_num⟩⟩

/-! C4: the reconstruction duration and what the dispatch cases advance by. -/

/-- Counterexample to C4 as stated: a block carrying a delay of 5 together with a
trapezoid of longest-axis duration 3 is dispatched as a delay and advances the
isochromat by 5, not by the longest-axis duration 3. -/
theorem C4_counterexample :
    apply_block traceOps 1 1 ([] : Trace) blkDelayG = some ([TraceStep.delayed 5], none) ∧
    find_precessing_time blkDelayG 1 = some 3 ∧ (5 : ℚ) ≠ 3 := by
  refine ⟨rfl, fpt_trapU blkDelayG 1 rfl, by norm_num⟩

/-- C4 amended: for raster-based reconstruction the returned duration is the
maximum of the present axes' intrinsic durations, and it is the amount of time by
which the gradient-only dispatch advances the isochromat; the delay dispatch case
instead advances by the delay sub-event's own duration. -/
theorem C4_duration_amended :
    (∀ (blk : Block) (dt : ℚ) (timing0 : List ℚ) (delay : ℚ) (g : G3) (t : List ℚ)
      (dur : ℚ), dt ≠ 0 → combine_gradients blk dt timing0 delay = some (g, t, dur) →
      find_precessing_time blk dt = some dur) ∧
    (∀ (blk : Block) (dt d : ℚ), find_precessing_time blk dt = some d →
      (∃ g ∈ block_grads blk, grad_duration g dt = d) ∧
        ∀ g ∈ block_grads blk, grad_duration g dt ≤ d) ∧
    (∀ (S : Type) (ops : SpinGroupOps S) (dtg dtr : ℚ) (isc : S) (blk : Block) (d : ℚ),
      blk.delay = none → blk.rf = none → blk.adc = none →
      (blk.gx.isSome || blk.gy.isSome || blk.gz.isSome) = true →
      find_precessing_time blk dtg = some d →
      apply_block ops dtg dtr isc blk =
        some (ops.fpwg isc (combine_gradient_areas blk) d, none)) ∧
    (∀ (S : Type) (ops : SpinGroupOps S) (dtg dtr : ℚ) (isc : S) (blk : Block) (d : ℚ),
      blk.delay = some d →
      apply_block ops dtg dtr isc blk = some (ops.delay isc d, none)) := by
  refine ⟨?_, ?_, ?_, ?_⟩
  · intro blk dt timing0 delay g t dur hdt h
    exact (combine_gradients_dt_inv blk dt timing0 delay g t dur hdt h).1
  · intro blk dt d h
    have hs := list_max_spec _ d h
    obtain ⟨hmem, hall⟩ := hs
    refine ⟨?_, ?_⟩
    · obtain ⟨g, hg, hgd⟩ := List.mem_map.mp hmem
      exact ⟨g, hg, hgd⟩
    · intro g hg
      exact hall _ (List.mem_map.mpr ⟨g, hg, rfl⟩)
  · intro S ops dtg dtr isc blk d h0 h1 h2 h3 hf
    rw [apply_block_grad ops dtg dtr isc blk h0 h1 h2 h3, grad_branch, hf]
  · intro S ops dtg dtr isc blk d h
    exact apply_block_delay ops dtg dtr isc blk d h

/-- Witness for C4 amended, at the unit-trapezoid blocks: duration 3 is attained
and maximal, the gradient-only block advances by 3, the delay block by 5. -/
theorem C4_witness :
    ((∃ g ∈ block_grads blkGradOnly, grad_duration g 1 = 3) ∧
      ∀ g ∈ block_grads blkGradOnly, grad_duration g 1 ≤ 3) ∧
    apply_block traceOps 1 1 ([] : Trace) blkGradOnly =
      some (traceOps.fpwg [] (combine_gradient_areas blkGradOnly) 3, none) ∧
    apply_block traceOps 1 1 ([] : Trace) blkDelayG =
      some (traceOps.delay [] 5, none) :=
  ⟨C4_duration_amended.2.1 blkGradOnly 1 3 (fpt_trapU blkGradOnly 1 rfl),
   C4_duration_amended.2.2.1 Trace traceOps 1 1 [] blkGradOnly 3 rfl rfl rfl rfl
     (fpt_trapU blkGradOnly 1 rfl),
   C4_duration_amended.2.2.2 Trace traceOps 1 1 [] blkDelayG 5 rfl⟩

/-! C3: the timing at which RF-concurrent gradients are reconstructed. -/

/-- Counterexample to C3 as stated: for the RF block with sample times 1 and 2,
one RF raster step 1, and a concurrent unit trapezoid, the dispatcher hands
apply_rf the gradient row reconstructed at the shifted times 0 and 1 (values 0, 1),
which differs from the reconstruction at the RF pulse's own sample times
(values 1, 1). -/
theorem C3_counterexample :
    blkRfG.rf.map Rf.t = some [1, 2] ∧
    apply_block traceOps 1 1 ([] : Trace) blkRfG =
      some ([TraceStep.rfPulse [⟨1, 0⟩, ⟨1, 0⟩] ⟨[0, 1], [0, 0], [0, 0]⟩ 1], none) ∧
    (combine_gradients blkRfG 0 [1, 2] 0).map (fun r => r.1) =
      some ⟨[1, 1], [0, 0], [0, 0]⟩ ∧
    (⟨[0, 1], [0, 0], [0, 0]⟩ : G3) ≠ ⟨[1, 1], [0, 0], [0, 0]⟩ := by
  refine ⟨rfl, ?_, ?_, by norm_num⟩
  · rw [apply_block_rf traceOps 1 1 [] blkRfG _ rfl rfl, rf_branch, combine_gradients]
    norm_num [interp_block, interp_axis, grad_ctrl, np_interp, trapU, GAMMA_BAR, blkRfG,
      cdivQ, traceOps]
  · rw [combine_gradients]
    norm_num [interp_block, interp_axis, grad_ctrl, np_interp, trapU, GAMMA_BAR, blkRfG]

/-- C3 amended: for every RF block the concurrent gradients are reconstructed by
linear interpolation at the RF pulse's sample time points each shifted back by one
RF raster step, and the B1 waveform (rf.signal / GAMMA_BAR) together with that
reconstructed gradient is applied to the isochromat at the RF raster step. -/
theorem C3_rf_timing_amended :
    ∀ (S : Type) (ops : SpinGroupOps S) (dtg dtr : ℚ) (isc : S) (blk : Block) (rf : Rf),
    blk.delay = none → blk.rf = some rf →
    combine_gradients blk 0 (rf.t.map (fun t => t - dtr)) 0 =
      some (interp_block blk (rf.t.map (fun t => t - dtr)),
        rf.t.map (fun t => t - dtr),
        (rf.t.map (fun t => t - dtr)).getLastD 0 - (rf.t.map (fun t => t - dtr)).headD 0) ∧
    apply_block ops dtg dtr isc blk =
      some (ops.apply_rf isc (rf.signal.map (fun c => cdivQ c GAMMA_BAR))
        (interp_block blk (rf.t.map (fun t => t - dtr))) dtr, none) := by
  intro S ops dtg dtr isc blk rf h0 h1
  constructor
  · rw [combine_gradients]
    simp
  · rw [apply_block_rf ops dtg dtr isc blk rf h0 h1, rf_branch, combine_gradients]
    simp

/-! C1 and C9: the ADC sampling loop. -/

lemma adc_state_from_shift {S : Type} (ops : SpinGroupOps S) (grad : G3) (dt : ℚ) :
    ∀ (j v : ℕ) (s : S),
    adc_state_from ops grad dt (ops.fpwg s (smul3 dt (gradCol grad v)) dt) (v + 1) j =
      adc_state_from ops grad dt s v (j + 1) := by
  intro j
  induction j with
  | zero =>
    intro v s
    rw [adc_state_from, adc_state_from, adc_state_from, Nat.add_zero]
  | succ j ih =>
    intro v s
    rw [adc_state_from, ih v s]
    have hvj : v + 1 + j = v + (j + 1) := by omega
    rw [hvj]
    rfl

lemma gradCol?_eq_some (g : G3) (v : ℕ) (h : v < g.x.length) :
    gradCol? g v = some (gradCol g v) := by
  rw [gradCol?, if_pos h]

lemma gradCol?_eq_none (g : G3) (v : ℕ) (h : ¬ v < g.x.length) :
    gradCol? g v = none := by
  rw [gradCol?, if_neg h]

lemma interp_axis_length (og : Option Grad) (t : List ℚ) :
    (interp_axis og t).length = t.length := by
  cases og <;> simp [interp_axis]

lemma adc_loop_eval {S : Type} (ops : SpinGroupOps S) (grad : G3) (dt : ℚ) (nsamp : ℕ) :
    ∀ (k v : ℕ) (s : S), v + k ≤ grad.x.length →
    adc_loop ops grad dt nsamp k v s =
      some (adc_state_from ops grad dt s v k,
        (List.range (min k (nsamp + 1 - v))).map
          (fun j => ops.get_m_signal (adc_state_from ops grad dt s v j))) := by
  intro k
  induction k with
  | zero => intro v s _; rw [adc_loop, adc_state_from]; simp
  | succ k ih =>
    intro v s hk
    rw [adc_loop]
    simp only [gradCol?_eq_some grad v (by omega),
      ih (v + 1) (ops.fpwg s (smul3 dt (gradCol grad v)) dt) (by omega),
      Option.some.injEq, Prod.mk.injEq]
    constructor
    · rw [adc_state_from_shift]
    · by_cases hv : v ≤ nsamp
      · rw [if_pos hv]
        have h1 : nsamp + 1 - v = (nsamp - v) + 1 := by omega
        have h2 : nsamp + 1 - (v + 1) = nsamp - v := by omega
        rw [h1, h2, Nat.succ_min_succ, List.range_succ_eq_map]
        simp only [List.map_cons, List.map_map, List.singleton_append]
        congr 1
        apply List.map_congr_left
        intro j _
        simp only [Function.comp_apply]
        rw [adc_state_from_shift]
      · rw [if_neg hv]
        have h1 : nsamp + 1 - v = 0 := by omega
        have h2 : nsamp + 1 - (v + 1) = 0 := by omega
        rw [h1, h2]
        simp

lemma adc_state_from_one {S : Type} (ops : SpinGroupOps S) (isc : S) (grad : G3)
    (delay dt : ℚ) : ∀ (j : ℕ),
    adc_state_from ops grad dt (adc_state ops isc grad delay dt 0) 1 j =
      adc_state ops isc grad delay dt j := by
  intro j
  induction j with
  | zero => rw [adc_state_from]
  | succ j ih =>
    rw [adc_state_from, ih, adc_state]
    have h : 1 + j = j + 1 := by omega
    rw [h]

lemma combine_grad_x_length (blk : Block) (dt : ℚ) (timing0 : List ℚ) (delay : ℚ)
    (g : G3) (t : List ℚ) (dur : ℚ)
    (h : combine_gradients blk dt timing0 delay = some (g, t, dur)) :
    g.x.length = t.length := by
  rw [combine_gradients_grad_eq blk dt timing0 delay g t dur h, interp_block]
  exact interp_axis_length blk.gx t

lemma apply_block_adc_eval {S : Type} (ops : SpinGroupOps S) (dtg dtr : ℚ) (isc : S)
    (blk : Block) (adc : Adc) (grad : G3) (timing : List ℚ) (dur : ℚ)
    (h0 : blk.delay = none) (h1 : blk.rf = none) (h2 : blk.adc = some adc)
    (hc : combine_gradients blk adc.dwell [] adc.delay = some (grad, timing, dur))
    (htne : timing ≠ []) :
    apply_block ops dtg dtr isc blk =
      some (adc_state ops isc grad adc.delay adc.dwell (timing.length - 1),
        some ((List.range (min (timing.length - 1) adc.num_samples)).map
          (fun k => ops.get_m_signal (adc_state ops isc grad adc.delay adc.dwell k)))) := by
  have hgl : grad.x.length = timing.length :=
    combine_grad_x_length blk adc.dwell [] adc.delay grad timing dur hc
  have hN : 1 ≤ timing.length := by
    cases timing with
    | nil => exact absurd rfl htne
    | cons _ _ => simp
  rw [apply_block_adc ops dtg dtr isc blk adc h0 h1 h2, adc_branch, hc]
  simp only [gradCol?_eq_some grad 0 (by omega),
    adc_loop_eval ops grad adc.dwell adc.num_samples (timing.length - 1) 1
      (ops.fpwg isc (smul3 adc.delay (gradCol grad 0)) adc.delay) (by omega)]
  simp only [Nat.add_sub_cancel]
  rw [show ops.fpwg isc (smul3 adc.delay (gradCol grad 0)) adc.delay
        = adc_state ops isc grad adc.delay adc.dwell 0 from rfl]
  simp only [adc_state_from_one]

/-- C1: in the ADC dispatch over a nonempty reconstructed timing grid (an empty
grid makes the program fail at the column-0 access instead), the isochromat is
first advanced through the ADC start delay under gradient column 0 scaled by the
delay, and then one signal sample is recorded before each dwell advance, so the
recorded sample with 0-based index k is the signal of the state reached after the
delay advance plus k dwell advances (1-based sample k reflects the state after
the delay advance plus k-1 advances). -/
theorem C1_adc_sampling :
    ∀ (S : Type) (ops : SpinGroupOps S) (dtg dtr : ℚ) (isc : S) (blk : Block)
      (adc : Adc) (grad : G3) (timing : List ℚ) (dur : ℚ),
    blk.delay = none → blk.rf = none → blk.adc = some adc →
    combine_gradients blk adc.dwell [] adc.delay = some (grad, timing, dur) →
    timing ≠ [] →
    apply_block ops dtg dtr isc blk =
      some (adc_state ops isc grad adc.delay adc.dwell (timing.length - 1),
        some ((List.range (min (timing.length - 1) adc.num_samples)).map
          (fun k => ops.get_m_signal (adc_state ops isc grad adc.delay adc.dwell k)))) := by
  intro S ops dtg dtr isc blk adc grad timing dur h0 h1 h2 hc htne
  exact apply_block_adc_eval ops dtg dtr isc blk adc grad timing dur h0 h1 h2 hc htne

/-- Witness for C1 at the delayed ADC block: two samples are recorded, sample k
reading the state after the delay advance plus k-1 dwell advances, and the
evaluated trace confirms the order delay advance, advance, advance. -/
theorem C1_witness :
    apply_block traceOps 1 1 ([] : Trace) blkAdcD =
      some (adc_state traceOps [] ⟨[0, 1, 1], [0, 0, 0], [0, 0, 0]⟩ 1 1 2,
        some ((List.range (min 2 2)).map
          (fun k => traceOps.get_m_signal
            (adc_state traceOps [] ⟨[0, 1, 1], [0, 0, 0], [0, 0, 0]⟩ 1 1 k)))) ∧
    adc_state traceOps [] ⟨[0, 1, 1], [0, 0, 0], [0, 0, 0]⟩ 1 1 2 =
      [TraceStep.precessed (0, 0, 0) 1, TraceStep.precessed (1, 0, 0) 1,
       TraceStep.precessed (1, 0, 0) 1] := by
  constructor
  · exact C1_adc_sampling Trace traceOps 1 1 [] blkAdcD ⟨1, 2, 1⟩
      ⟨[0, 1, 1], [0, 0, 0], [0, 0, 0]⟩ [0, 1, 2] 3 rfl rfl rfl combine_blkAdcD
      (by simp)
  · norm_num [adc_state, traceOps, smul3, gradCol]

lemma apply_block_adc_empty {S : Type} (ops : SpinGroupOps S) (dtg dtr : ℚ) (isc : S)
    (blk : Block) (adc : Adc) (grad : G3) (timing : List ℚ) (dur : ℚ)
    (h0 : blk.delay = none) (h1 : blk.rf = none) (h2 : blk.adc = some adc)
    (hc : combine_gradients blk adc.dwell [] adc.delay = some (grad, timing, dur))
    (hte : timing = []) :
    apply_block ops dtg dtr isc blk = none := by
  have hgl : grad.x.length = timing.length :=
    combine_grad_x_length blk adc.dwell [] adc.delay grad timing dur hc
  rw [apply_block_adc ops dtg dtr isc blk adc h0 h1 h2, adc_branch]
  simp only [hc, gradCol?_eq_none grad 0 (by rw [hgl, hte]; simp)]

/-- C9: an ADC block yields min(declared sample count, N - 1) samples, where N is
the length of the reconstructed gradient timing grid, which is determined by the
longest gradient axis duration, the dwell time and the ADC start delay and not by
the sample count; the isochromat is advanced through every one of the N - 1 raster
steps regardless of the declared count, and when the grid is empty the dispatch
fails at the column-0 access instead of sampling. -/
theorem C9_adc_sample_count :
    ∀ (S : Type) (ops : SpinGroupOps S) (dtg dtr : ℚ) (isc : S) (blk : Block)
      (adc : Adc) (grad : G3) (timing : List ℚ) (dur : ℚ),
    blk.delay = none → blk.rf = none → blk.adc = some adc → adc.dwell ≠ 0 →
    combine_gradients blk adc.dwell [] adc.delay = some (grad, timing, dur) →
    find_precessing_time blk adc.dwell = some dur ∧
    timing = (if adc.delay = 0 then np_arange 0 dur adc.dwell
              else 0 :: np_arange adc.delay dur adc.dwell) ∧
    (timing = [] → apply_block ops dtg dtr isc blk = none) ∧
    (timing ≠ [] →
      ∃ samples, apply_block ops dtg dtr isc blk =
          some (adc_state ops isc grad adc.delay adc.dwell (timing.length - 1),
            some samples) ∧
        samples.length = min adc.num_samples (timing.length - 1)) := by
  intro S ops dtg dtr isc blk adc grad timing dur h0 h1 h2 hdwell hc
  obtain ⟨hf, ht, _⟩ :=
    combine_gradients_dt_inv blk adc.dwell [] adc.delay grad timing dur hdwell hc
  refine ⟨hf, ht, ?_, ?_⟩
  · intro hte
    exact apply_block_adc_empty ops dtg dtr isc blk adc grad timing dur h0 h1 h2 hc hte
  · intro htne
    refine ⟨(List.range (min (timing.length - 1) adc.num_samples)).map
      (fun k => ops.get_m_signal (adc_state ops isc grad adc.delay adc.dwell k)),
      ?_, ?_⟩
    · exact apply_block_adc_eval ops dtg dtr isc blk adc grad timing dur h0 h1 h2 hc htne
    · rw [List.length_map, List.length_range, Nat.min_comm]

/-- Witness for C9 at the ADC block declaring 5 samples over a 3-point grid: only
min(5, 2) = 2 samples are recorded and the isochromat still advances through both
raster steps; at the zero-duration block the grid is empty and the dispatch fails. -/
theorem C9_witness :
    find_precessing_time blkAdcT 1 = some 3 ∧
    ([0, 1, 2] : List ℚ) = (if (0 : ℚ) = 0 then np_arange 0 3 1
                            else 0 :: np_arange 0 3 1) ∧
    (∃ samples, apply_block traceOps 1 1 ([] : Trace) blkAdcT =
        some (adc_state traceOps [] ⟨[0, 1, 1], [0, 0, 0], [0, 0, 0]⟩ 0 1 2,
          some samples) ∧
      samples.length = min 5 2) ∧
    apply_block traceOps 1 1 ([] : Trace) blkAdcZ = none :=
  have h := C9_adc_sample_count Trace traceOps 1 1 [] blkAdcT ⟨1, 5, 0⟩
    ⟨[0, 1, 1], [0, 0, 0], [0, 0, 0]⟩ [0, 1, 2] 3 rfl rfl rfl (by norm_num)
    combine_blkAdcT
  have hz := C9_adc_sample_count Trace traceOps 1 1 [] blkAdcZ ⟨1, 5, 0⟩
    ⟨[], [], []⟩ [] 0 rfl rfl rfl (by norm_num) combine_blkAdcZ
  ⟨h.1, h.2.1, h.2.2.2 (by simp), hz.2.2.1 rfl⟩

/-! C8: the signal shape depends only on the sequence. -/

lemma block_shape_spec {S : Type} (ops : SpinGroupOps S) (dtg dtr : ℚ) (isc : S)
    (blk : Block) :
    (apply_block ops dtg dtr isc blk).map (fun r => r.2.map List.length) =
      block_shape dtg blk := by
  cases hd : blk.delay with
  | some d =>
    rw [apply_block_delay ops dtg dtr isc blk d hd]
    simp [block_shape, hd]
  | none =>
    cases hr : blk.rf with
    | some rf =>
      rw [apply_block_rf ops dtg dtr isc blk rf hd hr]
      simp [rf_branch, combine_gradients, block_shape, hd, hr]
    | none =>
      cases ha : blk.adc with
      | some adc =>
        rw [apply_block_adc ops dtg dtr isc blk adc hd hr ha, adc_branch]
        cases hc : combine_gradients blk adc.dwell [] adc.delay with
        | none => simp [block_shape, hd, hr, ha, hc]
        | some r =>
          obtain ⟨g, t, dur⟩ := r
          have hgl : g.x.length = t.length :=
            combine_grad_x_length blk adc.dwell [] adc.delay g t dur hc
          by_cases hte : t.length = 0
          · simp only [gradCol?_eq_none g 0 (by omega)]
            simp [block_shape, hd, hr, ha, hc, hte]
          · simp only [gradCol?_eq_some g 0 (by omega),
              adc_loop_eval ops g adc.dwell adc.num_samples (t.length - 1) 1
                (ops.fpwg isc (smul3 adc.delay (gradCol g 0)) adc.delay) (by omega),
              Nat.add_sub_cancel]
            simp [block_shape, hd, hr, ha, hc, hte]
      | none =>
        by_cases hg : (blk.gx.isSome || blk.gy.isSome || blk.gz.isSome) = true
        · rw [apply_block_grad ops dtg dtr isc blk hd hr ha hg, grad_branch]
          cases hf : find_precessing_time blk dtg with
          | none => simp [block_shape, hd, hr, ha, hg, hf]
          | some dur => simp [block_shape, hd, hr, ha, hg, hf]
        · rw [apply_block]
          simp [block_shape, hd, hr, ha, hg]

lemma blocks_shape_spec {S : Type} (ops : SpinGroupOps S) (dtg dtr : ℚ) :
    ∀ (bs : List Block) (isc : S),
    (apply_blocks ops dtg dtr isc bs).map (fun r => r.2.map List.length) =
      blocks_shape dtg bs := by
  intro bs
  induction bs with
  | nil => intro isc; simp [apply_blocks, blocks_shape]
  | cons b bs ih =>
    intro isc
    rw [apply_blocks, blocks_shape]
    cases hb : apply_block ops dtg dtr isc b with
    | none =>
      have hshape := block_shape_spec ops dtg dtr isc b
      rw [hb] at hshape
      rw [← hshape]
      simp
    | some r =>
      obtain ⟨isc2, osig⟩ := r
      have hshape := block_shape_spec ops dtg dtr isc b
      rw [hb] at hshape
      rw [← hshape]
      simp only [Option.map_some']
      cases hrest : apply_blocks ops dtg dtr isc2 bs with
      | none =>
        have h2 := ih isc2
        rw [hrest] at h2
        rw [← h2]
        simp
      | some r2 =>
        obtain ⟨isc3, sigs⟩ := r2
        have h2 := ih isc2
        rw [hrest] at h2
        rw [← h2]
        simp only [Option.map_some']
        rw [List.map_append]
        cases osig <;> simp

lemma apply_pulseq_shape {S : Type} (ops : SpinGroupOps S) (isc : S) (seq : Sequence) :
    (apply_pulseq ops isc seq).map (fun sig => sig.map List.length) =
      blocks_shape seq.grad_raster_time seq.blocks := by
  rw [apply_pulseq, Option.map_map]
  exact blocks_shape_spec ops seq.grad_raster_time seq.rf_raster_time seq.blocks isc

/-- C8: the per-location signal shape, i.e. the list of per-ADC-block sample
counts, depends only on the sequence: two simulations over the same sequence with
any two locations, parameters, off-resonance values, phantoms, and even any two
isochromat implementations, produce signals of identical shape. -/
theorem C8_shape_sequence_only :
    ∀ (S T : Type) (ops : SpinGroupOps S) (ops' : SpinGroupOps T)
      (ph ph' : Phantom) (i i' : ℕ) (df df' : ℚ) (seq : Sequence),
    (sim_single_spingroup ops i df ph seq).map (fun sig => sig.map List.length) =
      (sim_single_spingroup ops' i' df' ph' seq).map (fun sig => sig.map List.length) := by
  intro S T ops ops' ph ph' i i' df df' seq
  rw [sim_single_spingroup, sim_single_spingroup, apply_pulseq_shape, apply_pulseq_shape]

/-! C7: additivity of the ensemble reduction. -/

lemma cadd_assoc (a b c : Cplx) : cadd (cadd a b) c = cadd a (cadd b c) := by
  simp [cadd, add_assoc]

lemma add2_assoc : ∀ (a b c : List Cplx), add2 (add2 a b) c = add2 a (add2 b c) := by
  intro a
  induction a with
  | nil => intro b c; simp [add2]
  | cons x xs ih =>
    intro b c
    cases b with
    | nil => simp [add2]
    | cons y ys =>
      cases c with
      | nil => simp [add2]
      | cons z zs =>
        have h := ih ys zs
        simp only [add2] at h
        simp [add2, cadd_assoc, h]

lemma add22_assoc : ∀ (a b c : List (List Cplx)),
    add22 (add22 a b) c = add22 a (add22 b c) := by
  intro a
  induction a with
  | nil => intro b c; simp [add22]
  | cons x xs ih =>
    intro b c
    cases b with
    | nil => simp [add22]
    | cons y ys =>
      cases c with
      | nil => simp [add22]
      | cons z zs =>
        have h := ih ys zs
        simp only [add22] at h
        simp [add22, add2_assoc, h]

lemma foldl_add22 : ∀ (l : List (List (List Cplx))) (x y : List (List Cplx)),
    l.foldl add22 (add22 x y) = add22 x (l.foldl add22 y) := by
  intro l
  induction l with
  | nil => intro x y; simp
  | cons h t ih =>
    intro x y
    rw [List.foldl_cons, List.foldl_cons, add22_assoc, ih]

lemma sum_signals_append (ra rb : List (List (List Cplx))) (ha : ra ≠ []) (hb : rb ≠ []) :
    sum_signals (ra ++ rb) = add22 (sum_signals ra) (sum_signals rb) := by
  cases ra with
  | nil => exact absurd rfl ha
  | cons a ra2 =>
    cases rb with
    | nil => exact absurd rfl hb
    | cons b rb2 =>
      rw [List.cons_append, sum_signals, sum_signals, sum_signals,
        List.foldl_append, List.foldl_cons, foldl_add22]

lemma collect_signals_inds_irrel {S : Type} (ops : SpinGroupOps S) (df : ℚ)
    (locf pf : ℕ → Vec3) (inds1 inds2 : List ℕ) (seq : Sequence) :
    ∀ (l : List ℕ),
    collect_signals ops df ⟨inds1, locf, pf⟩ seq l =
      collect_signals ops df ⟨inds2, locf, pf⟩ seq l := by
  intro l
  induction l with
  | nil => rfl
  | cons i l ih =>
    rw [collect_signals, collect_signals]
    rw [show sim_single_spingroup ops i df ⟨inds1, locf, pf⟩ seq =
      sim_single_spingroup ops i df ⟨inds2, locf, pf⟩ seq from rfl]
    cases sim_single_spingroup ops i df ⟨inds2, locf, pf⟩ seq with
    | none => rfl
    | some s => rw [ih]

lemma collect_signals_append {S : Type} (ops : SpinGroupOps S) (df : ℚ) (ph : Phantom)
    (seq : Sequence) : ∀ (A B : List ℕ) (ra rb : List (List (List Cplx))),
    collect_signals ops df ph seq A = some ra →
    collect_signals ops df ph seq B = some rb →
    collect_signals ops df ph seq (A ++ B) = some (ra ++ rb) := by
  intro A
  induction A with
  | nil =>
    intro B ra rb hA hB
    rw [collect_signals] at hA
    obtain rfl : ([] : List (List (List Cplx))) = ra := Option.some.inj hA
    rw [List.nil_append, List.nil_append, hB]
  | cons i A2 ih =>
    intro B ra rb hA hB
    cases hs : sim_single_spingroup ops i df ph seq with
    | none => simp [collect_signals, hs] at hA
    | some s =>
      cases hc : collect_signals ops df ph seq A2 with
      | none => simp [collect_signals, hs, hc] at hA
      | some ra2 =>
        simp only [collect_signals, hs, hc, Option.some.injEq] at hA
        rw [List.cons_append]
        simp only [collect_signals, hs, ih B ra2 rb hc hB]
        rw [← hA]
        simp

lemma collect_signals_length {S : Type} (ops : SpinGroupOps S) (df : ℚ) (ph : Phantom)
    (seq : Sequence) : ∀ (A : List ℕ) (ra : List (List (List Cplx))),
    collect_signals ops df ph seq A = some ra → ra.length = A.length := by
  intro A
  induction A with
  | nil =>
    intro ra hA
    rw [collect_signals] at hA
    rw [← Option.some.inj hA]
    rfl
  | cons i A2 ih =>
    intro ra hA
    cases hs : sim_single_spingroup ops i df ph seq with
    | none => simp [collect_signals, hs] at hA
    | some s =>
      cases hc : collect_signals ops df ph seq A2 with
      | none => simp [collect_signals, hs, hc] at hA
      | some ra2 =>
        simp only [collect_signals, hs, hc, Option.some.injEq] at hA
        rw [← hA, List.length_cons, ih ra2 hc, List.length_cons]

/-- C7: the ensemble signal is the elementwise sum of the per-location signals, so
over a phantom split into nonempty location index lists A and B (with the same
location and parameter tables) producing equal-shaped signals, the ensemble over
A ++ B is the elementwise sum of the ensembles over A and over B. -/
theorem C7_ensemble_additive :
    ∀ (S : Type) (ops : SpinGroupOps S) (df : ℚ) (locf pf : ℕ → Vec3)
      (A B : List ℕ) (seq : Sequence) (sa sb : List (List Cplx)),
    A ≠ [] → B ≠ [] →
    ensemble_signal ops df ⟨A, locf, pf⟩ seq = some sa →
    ensemble_signal ops df ⟨B, locf, pf⟩ seq = some sb →
    sa.map List.length = sb.map List.length →
    ensemble_signal ops df ⟨A ++ B, locf, pf⟩ seq = some (add22 sa sb) := by
  intro S ops df locf pf A B seq sa sb hA hB ha hb _
  rw [ensemble_signal] at ha hb ⊢
  obtain ⟨ra, hra, hsa⟩ := Option.map_eq_some'.mp ha
  obtain ⟨rb, hrb, hsb⟩ := Option.map_eq_some'.mp hb
  rw [collect_signals_inds_irrel ops df locf pf A B seq A] at hra
  rw [collect_signals_inds_irrel ops df locf pf (A ++ B) B seq (A ++ B)]
  rw [collect_signals_append ops df ⟨B, locf, pf⟩ seq A B ra rb hra hrb]
  have hralen := collect_signals_length ops df ⟨B, locf, pf⟩ seq A ra hra
  have hrblen := collect_signals_length ops df ⟨B, locf, pf⟩ seq B rb hrb
  have hrane : ra ≠ [] := by
    intro h
    rw [h] at hralen
    exact hA (List.length_eq_zero.mp hralen.symm)
  have hrbne : rb ≠ [] := by
    intro h
    rw [h] at hrblen
    exact hB (List.length_eq_zero.mp hrblen.symm)
  rw [Option.map_some', sum_signals_append ra rb hrane hrbne, hsa, hsb]

lemma apply_block_blkAdcG_eval :
    apply_block traceOps 1 1 ([] : Trace) blkAdcG =
      some ([TraceStep.precessed (0, 0, 0) 0, TraceStep.precessed (1, 0, 0) 1,
             TraceStep.precessed (1, 0, 0) 1], some [⟨1, 0⟩, ⟨2, 0⟩]) := by
  rw [apply_block_adc_eval traceOps 1 1 [] blkAdcG ⟨1, 2, 0⟩
      ⟨[0, 1, 1], [0, 0, 0], [0, 0, 0]⟩ [0, 1, 2] 3 rfl rfl rfl combine_blkAdcG
      (by simp)]
  norm_num [adc_state, traceOps, smul3, gradCol, range_two]

lemma apply_pulseq_seqAdc :
    apply_pulseq traceOps ([] : Trace) seqAdc = some [[⟨1, 0⟩, ⟨2, 0⟩]] := by
  simp [apply_pulseq, seqAdc, apply_blocks, apply_block_blkAdcG_eval]

lemma ensemble_seqAdc_single (i : ℕ) :
    ensemble_signal traceOps 0
      ⟨[i], fun _ => ((0 : ℚ), (0 : ℚ), (0 : ℚ)), fun _ => ((1 : ℚ), (1 : ℚ), (1 : ℚ))⟩
      seqAdc = some [[⟨1, 0⟩, ⟨2, 0⟩]] := by
  have h : sim_single_spingroup traceOps i 0
      ⟨[i], fun _ => ((0 : ℚ), (0 : ℚ), (0 : ℚ)), fun _ => ((1 : ℚ), (1 : ℚ), (1 : ℚ))⟩
      seqAdc = some [[⟨1, 0⟩, ⟨2, 0⟩]] := apply_pulseq_seqAdc
  simp only [ensemble_signal, collect_signals, h, Option.map_some', sum_signals,
    List.foldl_nil]

/-- Witness for C7: splitting the two-location phantom into its single locations,
the ensemble over both locations is the elementwise sum of the two single-location
ensembles, here 2 and 4 in the two samples. -/
theorem C7_witness :
    ensemble_signal traceOps 0
      ⟨[0] ++ [1], fun _ => ((0 : ℚ), (0 : ℚ), (0 : ℚ)),
       fun _ => ((1 : ℚ), (1 : ℚ), (1 : ℚ))⟩ seqAdc =
      some (add22 [[⟨1, 0⟩, ⟨2, 0⟩]] [[⟨1, 0⟩, ⟨2, 0⟩]]) ∧
    add22 [[⟨1, 0⟩, ⟨2, 0⟩]] [[⟨1, 0⟩, ⟨2, 0⟩]] = [[⟨2, 0⟩, ⟨4, 0⟩]] :=
  ⟨C7_ensemble_additive Trace traceOps 0
      (fun _ => ((0 : ℚ), (0 : ℚ), (0 : ℚ))) (fun _ => ((1 : ℚ), (1 : ℚ), (1 : ℚ)))
      [0] [1] seqAdc [[⟨1, 0⟩, ⟨2, 0⟩]] [[⟨1, 0⟩, ⟨2, 0⟩]]
      (by simp) (by simp) (ensemble_seqAdc_single 0) (ensemble_seqAdc_single 1) rfl,
   by norm_num [add22, add2, cadd]⟩

/-! C5: the reconstructed trapezoid waveform is the piecewise-linear interpolant
of the four control points. -/

lemma np_interp_trap (g : Trap) (hr : 0 < g.rise_time) (hf : 0 ≤ g.flat_time)
    (hl : 0 < g.fall_time) (x : ℚ) :
    np_interp x (grad_ctrl (Grad.trap g)).1 (grad_ctrl (Grad.trap g)).2 =
      trap_lin_interp g x := by
  have hlne : g.fall_time ≠ 0 := ne_of_gt hl
  simp only [grad_ctrl, np_interp]
  rw [trap_lin_interp]
  split_ifs with c1 c2 c3 c4
  · rfl
  · ring
  · ring
  · have hγ : GAMMA_BAR ≠ 0 := by norm_num [GAMMA_BAR]
    field_simp
    ring
  · rfl

lemma combine_x_eq (blk : Block) (t : List ℚ) (tr : Trap)
    (hx : blk.gx = some (Grad.trap tr)) (hr : 0 < tr.rise_time)
    (hf : 0 ≤ tr.flat_time) (hl : 0 < tr.fall_time) :
    (interp_block blk t).x = t.map (trap_lin_interp tr) := by
  rw [interp_block]
  simp only [hx, interp_axis]
  exact List.map_congr_left (fun x _ => np_interp_trap tr hr hf hl x)

lemma combine_y_eq (blk : Block) (t : List ℚ) (tr : Trap)
    (hy : blk.gy = some (Grad.trap tr)) (hr : 0 < tr.rise_time)
    (hf : 0 ≤ tr.flat_time) (hl : 0 < tr.fall_time) :
    (interp_block blk t).y = t.map (trap_lin_interp tr) := by
  rw [interp_block]
  simp only [hy, interp_axis]
  exact List.map_congr_left (fun x _ => np_interp_trap tr hr hf hl x)

lemma combine_z_eq (blk : Block) (t : List ℚ) (tr : Trap)
    (hz : blk.gz = some (Grad.trap tr)) (hr : 0 < tr.rise_time)
    (hf : 0 ≤ tr.flat_time) (hl : 0 < tr.fall_time) :
    (interp_block blk t).z = t.map (trap_lin_interp tr) := by
  rw [interp_block]
  simp only [hz, interp_axis]
  exact List.map_congr_left (fun x _ => np_interp_trap tr hr hf hl x)

/-- C5: for every trapezoid gradient axis present in a block, every reconstructed
waveform row value equals the piecewise-linear interpolation against the four
control points (0, rise, rise+flat, rise+flat+fall) with amplitudes
(0, plateau, plateau, 0), the plateau being amplitude / GAMMA_BAR. -/
theorem C5_trap_reconstruction :
    ∀ (blk : Block) (dt : ℚ) (timing0 : List ℚ) (delay : ℚ) (g : G3) (t : List ℚ)
      (dur : ℚ),
    combine_gradients blk dt timing0 delay = some (g, t, dur) →
    (∀ tr : Trap, blk.gx = some (Grad.trap tr) → 0 < tr.rise_time →
      0 ≤ tr.flat_time → 0 < tr.fall_time → g.x = t.map (trap_lin_interp tr)) ∧
    (∀ tr : Trap, blk.gy = some (Grad.trap tr) → 0 < tr.rise_time →
      0 ≤ tr.flat_time → 0 < tr.fall_time → g.y = t.map (trap_lin_interp tr)) ∧
    (∀ tr : Trap, blk.gz = some (Grad.trap tr) → 0 < tr.rise_time →
      0 ≤ tr.flat_time → 0 < tr.fall_time → g.z = t.map (trap_lin_interp tr)) := by
  intro blk dt timing0 delay g t dur h
  have hg := combine_gradients_grad_eq blk dt timing0 delay g t dur h
  subst hg
  refine ⟨?_, ?_, ?_⟩
  · intro tr hx hr hf hl
    exact combine_x_eq blk t tr hx hr hf hl
  · intro tr hy hr hf hl
    exact combine_y_eq blk t tr hy hr hf hl
  · intro tr hz hr hf hl
    exact combine_z_eq blk t tr hz hr hf hl

/-- Witness for C5 at the unit trapezoid over the grid 0, 1, 2: the reconstructed
row (0, 1, 1) is the pointwise piecewise-linear interpolant. -/
theorem C5_witness :
    combine_gradients blkAdcG 1 [] 0 =
      some (⟨[0, 1, 1], [0, 0, 0], [0, 0, 0]⟩, [0, 1, 2], 3) ∧
    ([0, 1, 1] : List ℚ) = ([0, 1, 2] : List ℚ).map (trap_lin_interp trapU) ∧
    ([0, 1, 2] : List ℚ).map (trap_lin_interp trapU) = [0, 1, 1] :=
  ⟨combine_blkAdcG,
   (C5_trap_reconstruction blkAdcG 1 [] 0 ⟨[0, 1, 1], [0, 0, 0], [0, 0, 0]⟩
      [0, 1, 2] 3 combine_blkAdcG).1 trapU rfl (by norm_num [trapU])
      (by norm_num [trapU]) (by norm_num [trapU]),
   by norm_num [trap_lin_interp, trapU, GAMMA_BAR]⟩

/-! C6: the trapezoidal-rule area of the reconstructed trapezoid waveform. -/

lemma np_trapz_chain (h F : ℚ → ℚ) :
    ∀ (grid : List ℚ),
    grid.Chain' (fun u v => (v - u) * (h u + h v) / 2 = F v - F u) →
    np_trapz (grid.map h) grid = F (grid.getLastD 0) - F (grid.headD 0) := by
  intro grid
  induction grid with
  | nil => intro _; simp [np_trapz]
  | cons x0 rest ih =>
    cases rest with
    | nil => intro _; simp [np_trapz]
    | cons x1 rest2 =>
      intro hchain
      rw [List.chain'_cons] at hchain
      obtain ⟨hpair, hchain2⟩ := hchain
      rw [List.map_cons, List.map_cons, np_trapz, ← List.map_cons, ih hchain2, hpair]
      rw [List.getLastD_cons 0 x0 (x1 :: rest2), List.getLastD_cons 0 x1 rest2,
        List.getLastD_cons x0 x1 rest2, List.headD_cons, List.headD_cons]
      ring

lemma chain'_and (P Q : ℚ → ℚ → Prop) :
    ∀ (l : List ℚ), l.Chain' P → l.Chain' Q →
    l.Chain' (fun a b => P a b ∧ Q a b) := by
  intro l
  induction l with
  | nil => intro _ _; simp
  | cons x rest ih =>
    cases rest with
    | nil => intro _ _; simp
    | cons y rest2 =>
      intro hp hq
      rw [List.chain'_cons] at hp hq ⊢
      exact ⟨⟨hp.1, hq.1⟩, ih hp.2 hq.2⟩

lemma chain'_of_forall (Q : ℚ → Prop) :
    ∀ (l : List ℚ), (∀ a ∈ l, Q a) → l.Chain' (fun a b => Q a ∧ Q b) := by
  intro l
  induction l with
  | nil => intro _; simp
  | cons x rest ih =>
    cases rest with
    | nil => intro _; simp
    | cons y rest2 =>
      intro hall
      rw [List.chain'_cons]
      refine ⟨⟨hall x (List.mem_cons_self x _), hall y ?_⟩, ih ?_⟩
      · exact List.mem_cons_of_mem x (List.mem_cons_self y _)
      · intro a ha
        exact hall a (List.mem_cons_of_mem x ha)

lemma chain'_of_forall_left (r : ℚ) :
    ∀ (l : List ℚ), (∀ a ∈ l, r ≤ a) → l.Chain' (fun u v => r ≤ u ∨ v ≤ r) := by
  intro l hall
  exact (chain'_of_forall (fun a => r ≤ a) l hall).imp
    (fun a b hab => Or.inl hab.1)

lemma sorted_chain_split (r : ℚ) :
    ∀ (l : List ℚ), l.Sorted (· ≤ ·) → r ∈ l →
    l.Chain' (fun u v => r ≤ u ∨ v ≤ r) := by
  intro l
  induction l with
  | nil => intro _ _; simp
  | cons x rest ih =>
    intro hs hm
    rw [List.sorted_cons] at hs
    obtain ⟨hx, hs2⟩ := hs
    cases rest with
    | nil => simp
    | cons y rest2 =>
      rw [List.chain'_cons]
      rcases List.mem_cons.mp hm with hrx | hrm
      · subst hrx
        refine ⟨Or.inl le_rfl, ?_⟩
        exact chain'_of_forall_left r (y :: rest2) hx
      · refine ⟨?_, ih hs2 hrm⟩
        right
        rcases List.mem_cons.mp hrm with h1 | h2
        · exact le_of_eq h1.symm
        · rw [List.sorted_cons] at hs2
          exact hs2.1 r h2

lemma getLastD_cons_irrel : ∀ (l : List ℚ) (y d : ℚ),
    (y :: l).getLastD d = (y :: l).getLastD 0 := by
  intro l
  induction l with
  | nil => intro y d; rfl
  | cons z rest ih =>
    intro y d
    rw [List.getLastD_cons d y (z :: rest), List.getLastD_cons 0 y (z :: rest)]

lemma getLastD_cons_mem : ∀ (l : List ℚ) (y : ℚ), (y :: l).getLastD 0 ∈ y :: l := by
  intro l
  induction l with
  | nil => intro y; simp [List.getLastD]
  | cons z rest ih =>
    intro y
    rw [List.getLastD_cons 0 y (z :: rest), getLastD_cons_irrel rest z y]
    exact List.mem_cons_of_mem y (ih z)

lemma sorted_headD_le : ∀ (l : List ℚ), l.Sorted (· ≤ ·) → ∀ u ∈ l, l.headD 0 ≤ u := by
  intro l
  cases l with
  | nil => intro _ u hu; simp at hu
  | cons x rest =>
    intro hs u hu
    rw [List.headD_cons]
    rw [List.sorted_cons] at hs
    rcases List.mem_cons.mp hu with h1 | h2
    · exact le_of_eq h1.symm
    · exact hs.1 u h2

lemma sorted_le_getLastD : ∀ (l : List ℚ), l.Sorted (· ≤ ·) →
    ∀ u ∈ l, u ≤ l.getLastD 0 := by
  intro l
  induction l with
  | nil => intro _ u hu; simp at hu
  | cons x rest ih =>
    intro hs u hu
    rw [List.sorted_cons] at hs
    obtain ⟨hx, hs2⟩ := hs
    cases rest with
    | nil =>
      rcases List.mem_cons.mp hu with h1 | h2
      · rw [h1]; rfl
      · simp at h2
    | cons y rest2 =>
      rw [List.getLastD_cons 0 x (y :: rest2), getLastD_cons_irrel rest2 y x]
      rcases List.mem_cons.mp hu with h1 | h2
      · subst h1
        exact le_trans (hx _ (getLastD_cons_mem rest2 y)) le_rfl
      · exact ih hs2 u h2

lemma tli_seg1 (g : Trap) (hr : 0 < g.rise_time) (x : ℚ) (h0 : 0 ≤ x)
    (h1 : x ≤ g.rise_time) :
    trap_lin_interp g x = (g.amplitude / GAMMA_BAR) * x / g.rise_time := by
  rw [trap_lin_interp]
  split_ifs with c1
  · have hx : x = 0 := le_antisymm c1 h0
    rw [hx]
    ring
  · rfl

lemma tli_seg2 (g : Trap) (hr : 0 < g.rise_time) (x : ℚ) (h1 : g.rise_time ≤ x)
    (h2 : x ≤ g.rise_time + g.flat_time) :
    trap_lin_interp g x = g.amplitude / GAMMA_BAR := by
  have hrne : g.rise_time ≠ 0 := ne_of_gt hr
  have hγ : GAMMA_BAR ≠ 0 := by norm_num [GAMMA_BAR]
  rw [trap_lin_interp]
  split_ifs with c1 c2
  · linarith
  · have hx : x = g.rise_time := le_antisymm c2 h1
    rw [hx]
    field_simp
    ring
  · rfl

lemma tli_seg3 (g : Trap) (hr : 0 < g.rise_time) (hf : 0 ≤ g.flat_time)
    (hl : 0 < g.fall_time) (x : ℚ) (h1 : g.rise_time + g.flat_time ≤ x)
    (h2 : x ≤ g.rise_time + g.flat_time + g.fall_time) :
    trap_lin_interp g x =
      (g.amplitude / GAMMA_BAR) *
        (g.rise_time + g.flat_time + g.fall_time - x) / g.fall_time := by
  have hrne : g.rise_time ≠ 0 := ne_of_gt hr
  have hlne : g.fall_time ≠ 0 := ne_of_gt hl
  have hγ : GAMMA_BAR ≠ 0 := by norm_num [GAMMA_BAR]
  rw [trap_lin_interp]
  split_ifs with c1 c2 c3
  · linarith
  · have hf0 : g.flat_time = 0 := by linarith
    have hx : x = g.rise_time := by linarith
    rw [hx, hf0]
    field_simp
    ring
  · have hx : x = g.rise_time + g.flat_time := le_antisymm c3 h1
    rw [hx]
    field_simp
    ring
  · rfl

lemma trapF_seg1 (g : Trap) (x : ℚ) (h1 : x ≤ g.rise_time) :
    trapF g x = (g.amplitude / GAMMA_BAR) * x ^ 2 / (2 * g.rise_time) := by
  rw [trapF, if_pos h1]

lemma trapF_seg2 (g : Trap) (hr : 0 < g.rise_time) (x : ℚ) (h1 : g.rise_time ≤ x)
    (h2 : x ≤ g.rise_time + g.flat_time) :
    trapF g x = (g.amplitude / GAMMA_BAR) * g.rise_time / 2 +
      (g.amplitude / GAMMA_BAR) * (x - g.rise_time) := by
  have hrne : g.rise_time ≠ 0 := ne_of_gt hr
  have hγ : GAMMA_BAR ≠ 0 := by norm_num [GAMMA_BAR]
  rw [trapF]
  split_ifs with c1
  · have hx : x = g.rise_time := le_antisymm c1 h1
    rw [hx]
    field_simp
    ring
  · rfl

lemma trapF_seg3 (g : Trap) (hr : 0 < g.rise_time) (hf : 0 ≤ g.flat_time)
    (hl : 0 < g.fall_time) (x : ℚ) (h1 : g.rise_time + g.flat_time ≤ x) :
    trapF g x = (g.amplitude / GAMMA_BAR) * g.rise_time / 2 +
      (g.amplitude / GAMMA_BAR) * g.flat_time +
      ((g.amplitude / GAMMA_BAR) * (x - g.rise_time - g.flat_time) -
        (g.amplitude / GAMMA_BAR) * (x - g.rise_time - g.flat_time) ^ 2 /
          (2 * g.fall_time)) := by
  have hrne : g.rise_time ≠ 0 := ne_of_gt hr
  have hlne : g.fall_time ≠ 0 := ne_of_gt hl
  have hγ : GAMMA_BAR ≠ 0 := by norm_num [GAMMA_BAR]
  rw [trapF]
  split_ifs with c1 c2
  · have hf0 : g.flat_time = 0 := by linarith
    have hx : x = g.rise_time := by linarith
    rw [hx, hf0]
    field_simp
    ring
  · have hx : x = g.rise_time + g.flat_time := le_antisymm c2 h1
    rw [hx]
    field_simp
  · rfl

lemma trap_pair (g : Trap) (hr : 0 < g.rise_time) (hf : 0 ≤ g.flat_time)
    (hl : 0 < g.fall_time) (u v : ℚ) (huv : u ≤ v) (hu0 : 0 ≤ u)
    (hvT : v ≤ g.rise_time + g.flat_time + g.fall_time)
    (hs1 : g.rise_time ≤ u ∨ v ≤ g.rise_time)
    (hs2 : g.rise_time + g.flat_time ≤ u ∨ v ≤ g.rise_time + g.flat_time) :
    (v - u) * (trap_lin_interp g u + trap_lin_interp g v) / 2 =
      trapF g v - trapF g u := by
  have hrne : g.rise_time ≠ 0 := ne_of_gt hr
  have hlne : g.fall_time ≠ 0 := ne_of_gt hl
  have hγ : GAMMA_BAR ≠ 0 := by norm_num [GAMMA_BAR]
  rcases hs1 with h1 | h1
  · rcases hs2 with h2 | h2
    · rw [tli_seg3 g hr hf hl u h2 (le_trans huv hvT),
        tli_seg3 g hr hf hl v (le_trans h2 huv) hvT,
        trapF_seg3 g hr hf hl u h2, trapF_seg3 g hr hf hl v (le_trans h2 huv)]
      field_simp
      ring
    · rw [tli_seg2 g hr u h1 (le_trans huv h2), tli_seg2 g hr v (le_trans h1 huv) h2,
        trapF_seg2 g hr u h1 (le_trans huv h2), trapF_seg2 g hr v (le_trans h1 huv) h2]
      ring
  · rw [tli_seg1 g hr u hu0 (le_trans huv h1),
      tli_seg1 g hr v (le_trans hu0 huv) h1,
      trapF_seg1 g u (le_trans huv h1), trapF_seg1 g v h1]
    field_simp
    ring

/-- C6: for a trapezoid axis, the trapezoidal-rule integral of the reconstructed
waveform over any sorted timing grid spanning the trapezoid support and containing
the four control points equals the analytic trapezoid area
(flat + total) * plateau / 2 with total = rise + flat + fall and plateau =
amplitude / GAMMA_BAR, in exact arithmetic. -/
theorem C6_trapz_area :
    ∀ (g : Trap) (grid : List ℚ),
    0 < g.rise_time → 0 ≤ g.flat_time → 0 < g.fall_time →
    grid.Sorted (· ≤ ·) →
    grid.headD 0 = 0 →
    grid.getLastD 0 = g.rise_time + g.flat_time + g.fall_time →
    g.rise_time ∈ grid → g.rise_time + g.flat_time ∈ grid →
    np_trapz (interp_axis (some (Grad.trap g)) grid) grid =
      (g.flat_time + (g.rise_time + g.flat_time + g.fall_time)) *
        (g.amplitude / GAMMA_BAR) / 2 := by
  intro g grid hr hf hl hsorted hhead hlast hmr hmrf
  have hmap : interp_axis (some (Grad.trap g)) grid = grid.map (trap_lin_interp g) := by
    simp only [interp_axis]
    exact List.map_congr_left (fun x _ => np_interp_trap g hr hf hl x)
  have hbounds : ∀ u ∈ grid, 0 ≤ u ∧ u ≤ g.rise_time + g.flat_time + g.fall_time := by
    intro u hu
    constructor
    · rw [← hhead]
      exact sorted_headD_le grid hsorted u hu
    · rw [← hlast]
      exact sorted_le_getLastD grid hsorted u hu
  have hchain : grid.Chain' (fun u v =>
      (v - u) * (trap_lin_interp g u + trap_lin_interp g v) / 2 =
        trapF g v - trapF g u) := by
    have h0 : grid.Chain' (· ≤ ·) := List.Pairwise.chain' hsorted
    have h1 := sorted_chain_split g.rise_time grid hsorted hmr
    have h2 := sorted_chain_split (g.rise_time + g.flat_time) grid hsorted hmrf
    have h3 := chain'_of_forall
      (fun u => 0 ≤ u ∧ u ≤ g.rise_time + g.flat_time + g.fall_time) grid hbounds
    have hall := chain'_and _ _ grid (chain'_and _ _ grid (chain'_and _ _ grid h0 h1) h2) h3
    refine hall.imp ?_
    rintro u v ⟨⟨⟨huv, hs1⟩, hs2⟩, ⟨hu0, _⟩, ⟨_, hvT⟩⟩
    exact trap_pair g hr hf hl u v huv hu0 hvT hs1 hs2
  rw [hmap, np_trapz_chain (trap_lin_interp g) (trapF g) grid hchain, hhead, hlast]
  have hF0 : trapF g 0 = 0 := by
    rw [trapF, if_pos (le_of_lt hr)]
    ring
  have hFT : trapF g (g.rise_time + g.flat_time + g.fall_time) =
      (g.flat_time + (g.rise_time + g.flat_time + g.fall_time)) *
        (g.amplitude / GAMMA_BAR) / 2 := by
    have hlne : g.fall_time ≠ 0 := ne_of_gt hl
    have hγ : GAMMA_BAR ≠ 0 := by norm_num [GAMMA_BAR]
    rw [trapF, if_neg (by linarith), if_neg (by linarith)]
    field_simp
    ring
  rw [hF0, hFT]
  ring

/-- Witness for C6 at the unit trapezoid over the grid 0, 1/2, 1, 2, 3: the
trapezoidal-rule area equals (1 + 3) * 1 / 2 = 2. -/
theorem C6_witness :
    np_trapz (interp_axis (some (Grad.trap trapU)) [0, 1/2, 1, 2, 3])
        [0, 1/2, 1, 2, 3] =
      (trapU.flat_time + (trapU.rise_time + trapU.flat_time + trapU.fall_time)) *
        (trapU.amplitude / GAMMA_BAR) / 2 ∧
    (trapU.flat_time + (trapU.rise_time + trapU.flat_time + trapU.fall_time)) *
        (trapU.amplitude / GAMMA_BAR) / 2 = 2 :=
  ⟨C6_trapz_area trapU [0, 1/2, 1, 2, 3] (by norm_num [trapU]) (by norm_num [trapU])
      (by norm_num [trapU])
      (by norm_num [List.sorted_cons])
      (by norm_num) (by norm_num [trapU]) (by norm_num [trapU]) (by norm_num [trapU]),
   by norm_num [trapU, GAMMA_BAR]⟩

/-- Witness for C3 amended at the concrete RF block: the gradient applied is the
reconstruction at the shifted times 0 and 1. -/
theorem C3_witness :
    combine_gradients blkRfG 0 ([(1 : ℚ), 2].map (fun t => t - 1)) 0 =
      some (interp_block blkRfG ([(1 : ℚ), 2].map (fun t => t - 1)),
        ([(1 : ℚ), 2].map (fun t => t - 1)),
        (([(1 : ℚ), 2].map (fun t => t - 1)).getLastD 0 -
          ([(1 : ℚ), 2].map (fun t => t - 1)).headD 0)) ∧
    apply_block traceOps 1 1 ([] : Trace) blkRfG =
      some (traceOps.apply_rf []
        ([⟨GAMMA_BAR, 0⟩, ⟨GAMMA_BAR, 0⟩].map (fun c => cdivQ c GAMMA_BAR))
        (interp_block blkRfG ([(1 : ℚ), 2].map (fun t => t - 1))) 1, none) :=
  C3_rf_timing_amended Trace traceOps 1 1 [] blkRfG
    ⟨[⟨GAMMA_BAR, 0⟩, ⟨GAMMA_BAR, 0⟩], [1, 2]⟩ rfl rfl
